import Mathlib

/-!
Verification of the `KeyValues` hierarchical key/value parser and document
tree (`src/code/CairoText.hpp`, KeyValues section).  Strings are modelled as
`List Char`; the C `long` is modelled as `Int` with explicit clamping where
the source clamps; the C `double` is modelled as `Rat` (parsing of a decimal
literal is exact in `Rat`; IEEE rounding is abstracted, which no claim here
depends on).
-/

namespace KVSpec

/-- Strings from the C code (`char *`), as lists of characters. -/
abbrev Str := List Char

/-- `KeyValues::EError`. -/
inductive EError where
  | NONE
  | UNEXPECTED_EOF
  | MISSING_BRACKET
  | MISSING_QUOTE
  | UNNAMED_SECTION
  | UNTERMINATED_SECTION
deriving DecidableEq, Repr

/-- `KeyValues::Key::ELastCached` together with the `cachedv` union.  The
union is only ever read under the matching tag, so a tagged sum is a faithful
model. -/
inductive CachedVal where
  | NONE
  | IVAL (v : Int)
  | FVAL (v : Rat)
  | BVAL (v : Bool)
deriving DecidableEq, Repr

/-- `KeyValues::Key`: one key/value pair.  `key` and `value` are nullable
`char *` in the source, hence `Option Str`.  The default constructor only
initializes `cached` to `NONE`. -/
structure Key where
  key : Option Str
  value : Option Str
  cached : CachedVal
  quoted : Bool
deriving DecidableEq, Repr

/-- `class KeyValues`: a section of the document tree.  `child_sections`
owns the children; `good` is the validity flag; `quoted` records whether the
section name was quoted in the source text. -/
structure KeyValues where
  name : Option Str
  keys : List Key
  child_sections : List KeyValues
  good : Bool
  quoted : Bool

/-- `KeyValues()` default constructor: `good(true), quoted(false),
name(nullptr)`. -/
def KeyValues.new : KeyValues :=
  { name := none, keys := [], child_sections := [], good := true, quoted := false }

/-- `KeyValues(const char *name, ...)`: delegates to the default constructor
and then duplicates the given name. -/
def KeyValues.mkNamed (n : Str) : KeyValues :=
  { name := some n, keys := [], child_sections := [], good := true, quoted := false }

/-- C `isspace` in the default locale, as used by `strtol`/`strtod`. -/
def c_isspace (c : Char) : Bool :=
  c = ' ' || c = '\t' || c = '\n' || c = '\x0b' || c = '\x0c' || c = '\r'

/-- ASCII decimal digit test. -/
def c_isdigit (c : Char) : Bool :=
  '0' ≤ c && c ≤ '9'

def digitVal (c : Char) : Nat := c.toNat - '0'.toNat

/-- Numeric value of a list of decimal digits, most significant first. -/
def digitsVal (ds : Str) : Nat :=
  ds.foldl (fun a c => 10 * a + digitVal c) 0

def LONG_MAX : Int := 2 ^ 63 - 1

def LONG_MIN : Int := -(2 ^ 63)

/-- `strtol(s, nullptr, 10)` on a 64-bit `long`: skip leading whitespace, an
optional sign, then a maximal run of decimal digits.  Returns the converted
value (clamped to `LONG_MAX`/`LONG_MIN` on overflow) together with a flag
that is true exactly when the call sets `errno` to `ERANGE`.  When no digits
are present there is no conversion: the result is `0` and — crucially —
`errno` is left untouched. -/
def strtol (s : Str) : Int × Bool :=
  let s1 := s.dropWhile c_isspace
  let (neg, s2) : Bool × Str :=
    match s1 with
    | '-' :: t => (true, t)
    | '+' :: t => (false, t)
    | t => (false, t)
  let ds := s2.takeWhile c_isdigit
  let mag : Int := (digitsVal ds : Int)
  let v : Int := if neg then -mag else mag
  if v > LONG_MAX then (LONG_MAX, true)
  else if v < LONG_MIN then (LONG_MIN, true)
  else (v, false)

/-- ASCII lower-casing, for `strcasecmp`. -/
def asciiLower (c : Char) : Char :=
  if 'A' ≤ c && c ≤ 'Z' then Char.ofNat (c.toNat + 32) else c

/-- `strcasecmp(a, b) == 0`. -/
def strcaseEq (a b : Str) : Bool :=
  a.map asciiLower == b.map asciiLower

/-- `KeyValues::Key::ReadBool`.  Returns `(result, ok, key-after-call)`: the
call mutates `this` when it caches a freshly parsed value. -/
def Key.ReadBool (k : Key) : Bool × Bool × Key :=
  match k.cached with
  | .BVAL b => (b, true, k)
  | _ =>
    match k.value with
    | none => (false, false, k)
    | some v =>
      if strcaseEq v ( "true".toList) || v == ( "1".toList) then
        (true, true, { k with cached := .BVAL true })
      else if strcaseEq v ( "false".toList) || v == ( "0".toList) then
        (false, true, { k with cached := .BVAL false })
      else (false, false, k)

/-- `KeyValues::Key::ReadInt`.  The source calls `strtol` and then tests
`errno == 0` without having reset `errno` first; with the ambient `errno`
equal to zero (modelled here), the only failure `strtol` can signal is
`ERANGE`, so a string with no digits at all "succeeds" with value `0`.
Returns `(result, ok, key-after-call)`. -/
def Key.ReadInt (k : Key) : Int × Bool × Key :=
  match k.cached with
  | .IVAL v => (v, true, k)
  | _ =>
    match k.value with
    | none => (0, false, k)
    | some s =>
      let (v, erange) := strtol s
      if erange then (0, false, k)
      else (v, true, { k with cached := .IVAL v })

/-- `strtod(s, nullptr)` restricted to decimal literals (the forms produced
and consumed by this repository; hexadecimal floats and `inf`/`nan` are not
modelled): optional whitespace and sign, digits with an optional fractional
part (at least one digit overall), and an optional exponent that is consumed
only when at least one exponent digit follows.  The value is exact in `Rat`.
The second component is true when `strtod` would set `errno` (`ERANGE`); for
the tame magnitudes appearing in this development it is `false`, and no
claim below depends on the overflow threshold. -/
def strtod (s : Str) : Rat × Bool :=
  let s1 := s.dropWhile c_isspace
  let (neg, s2) : Bool × Str :=
    match s1 with
    | '-' :: t => (true, t)
    | '+' :: t => (false, t)
    | t => (false, t)
  let ip := s2.takeWhile c_isdigit
  let s3 := s2.dropWhile c_isdigit
  let (fp, s4) : Str × Str :=
    match s3 with
    | '.' :: t => (t.takeWhile c_isdigit, t.dropWhile c_isdigit)
    | t => ([], t)
  if ip = [] ∧ fp = [] then (0, false)
  else
    let (ex : Int) :=
      match s4 with
      | 'e' :: '-' :: t => if t.takeWhile c_isdigit = [] then 0 else -(digitsVal (t.takeWhile c_isdigit) : Int)
      | 'E' :: '-' :: t => if t.takeWhile c_isdigit = [] then 0 else -(digitsVal (t.takeWhile c_isdigit) : Int)
      | 'e' :: '+' :: t => (digitsVal (t.takeWhile c_isdigit) : Int)
      | 'E' :: '+' :: t => (digitsVal (t.takeWhile c_isdigit) : Int)
      | 'e' :: t => (digitsVal (t.takeWhile c_isdigit) : Int)
      | 'E' :: t => (digitsVal (t.takeWhile c_isdigit) : Int)
      | _ => 0
    let mant : Rat := (digitsVal ip : Rat) + (digitsVal fp : Rat) / ((10 : Rat) ^ fp.length)
    let mag : Rat := mant * (10 : Rat) ^ ex
    (if neg then -mag else mag, false)

/-- `KeyValues::Key::ReadFloat`: same `errno`-misuse pattern as `ReadInt`. -/
def Key.ReadFloat (k : Key) : Rat × Bool × Key :=
  match k.cached with
  | .FVAL v => (v, true, k)
  | _ =>
    match k.value with
    | none => (0, false, k)
    | some s =>
      let (f, erange) := strtod s
      if erange then (0, false, k)
      else (f, true, { k with cached := .FVAL f })

/-- The `(int)` cast applied to the `long` result in `KeyValues::GetInt`:
wrap modulo `2^32` into `[-2^31, 2^31)`. -/
def toCInt (v : Int) : Int :=
  (v + 2 ^ 31).emod (2 ^ 32) - 2 ^ 31

/-- `KeyValues::GetBool`.  The loop is `for (auto _key : this->keys)`: each
element is copied by value, so `ReadBool`'s cache update lands on the copy
and is discarded; the section itself is never mutated, which is why this
model returns only the result. -/
def KeyValues.GetBool (kv : KeyValues) (key : Str) (dflt : Bool) : Bool :=
  go kv.keys
where
  go : List Key → Bool
  | [] => dflt
  | k :: rest =>
    if k.key = some key then
      let (b, ok, _) := k.ReadBool
      if ok then b else dflt
    else go rest

/-- `KeyValues::GetInt` (`for (auto _key : ...)`, by value: caching is
discarded; see `GetBool`). -/
def KeyValues.GetInt (kv : KeyValues) (key : Str) (dflt : Int) : Int :=
  go kv.keys
where
  go : List Key → Int
  | [] => dflt
  | k :: rest =>
    if k.key = some key then
      let (v, ok, _) := k.ReadInt
      if ok then toCInt v else dflt
    else go rest

/-- `KeyValues::GetFloat` (by-value loop; the `(float)` narrowing of the
`double` result is abstracted by the `Rat` model). -/
def KeyValues.GetFloat (kv : KeyValues) (key : Str) (dflt : Rat) : Rat :=
  go kv.keys
where
  go : List Key → Rat
  | [] => dflt
  | k :: rest =>
    if k.key = some key then
      let (f, ok, _) := k.ReadFloat
      if ok then f else dflt
    else go rest

/-- `KeyValues::GetDouble` (by-value loop). -/
def KeyValues.GetDouble (kv : KeyValues) (key : Str) (dflt : Rat) : Rat :=
  go kv.keys
where
  go : List Key → Rat
  | [] => dflt
  | k :: rest =>
    if k.key = some key then
      let (f, ok, _) := k.ReadFloat
      if ok then f else dflt
    else go rest

/-- `KeyValues::GetString`: first match returns the raw `value` pointer
(which the caller cannot distinguish from the default when null). -/
def KeyValues.GetString (kv : KeyValues) (key : Str) (dflt : Option Str) : Option Str :=
  go kv.keys
where
  go : List Key → Option Str
  | [] => dflt
  | k :: rest => if k.key = some key then k.value else go rest

/-- `KeyValues::HasKey`. -/
def KeyValues.HasKey (kv : KeyValues) (key : Str) : Bool :=
  kv.keys.any (fun k => k.key = some key)

/-- `KeyValues::GetChild`: first child whose (non-null) name matches. -/
def KeyValues.GetChild (kv : KeyValues) (n : Str) : Option KeyValues :=
  go kv.child_sections
where
  go : List KeyValues → Option KeyValues
  | [] => none
  | c :: rest => if c.name = some n then some c else go rest

/-- `KeyValues::SetBool` (`for (auto &_key : ...)`, by reference): writes the
cache tag and cached value of the first matching entry; the string `value`
field is not touched.  No-op when no key matches. -/
def KeyValues.SetBool (kv : KeyValues) (key : Str) (v : Bool) : KeyValues :=
  { kv with keys := go kv.keys }
where
  go : List Key → List Key
  | [] => []
  | k :: rest =>
    if k.key = some key then { k with cached := .BVAL v } :: rest
    else k :: go rest

/-- `KeyValues::SetInt`: cache-only write, like `SetBool`. -/
def KeyValues.SetInt (kv : KeyValues) (key : Str) (v : Int) : KeyValues :=
  { kv with keys := go kv.keys }
where
  go : List Key → List Key
  | [] => []
  | k :: rest =>
    if k.key = some key then { k with cached := .IVAL v } :: rest
    else k :: go rest

/-- `KeyValues::SetFloat`: cache-only write, like `SetBool`. -/
def KeyValues.SetFloat (kv : KeyValues) (key : Str) (v : Rat) : KeyValues :=
  { kv with keys := go kv.keys }
where
  go : List Key → List Key
  | [] => []
  | k :: rest =>
    if k.key = some key then { k with cached := .FVAL v } :: rest
    else k :: go rest

/-- `KeyValues::SetString`: resets the cache tag to `NONE` and replaces the
string value of the first matching entry; no-op when no key matches. -/
def KeyValues.SetString (kv : KeyValues) (key : Str) (v : Str) : KeyValues :=
  { kv with keys := go kv.keys }
where
  go : List Key → List Key
  | [] => []
  | k :: rest =>
    if k.key = some key then { k with cached := .NONE, value := some v } :: rest
    else k :: go rest

/-- `KeyValues::ClearKey`: empties the value and resets the cache of the
first matching entry. -/
def KeyValues.ClearKey (kv : KeyValues) (key : Str) : KeyValues :=
  { kv with keys := go kv.keys }
where
  go : List Key → List Key
  | [] => []
  | k :: rest =>
    if k.key = some key then { k with cached := .NONE, value := some [] } :: rest
    else k :: go rest

/-- `KeyValues::RemoveKey`: erases the first entry whose (non-null) *value*
field equals the argument — the comparison is `strcmp(key, it->value)`. -/
def KeyValues.RemoveKey (kv : KeyValues) (key : Str) : KeyValues :=
  { kv with keys := go kv.keys }
where
  go : List Key → List Key
  | [] => []
  | k :: rest => if k.value = some key then rest else k :: go rest

/-- The scanner's private whitespace test `KeyValues::_internal_isspace`:
space, tab, newline, carriage return only. -/
def kvIsspace (c : Char) : Bool :=
  c = ' ' || c = '\t' || c = '\n' || c = '\r'

/-- The mutable locals of `KeyValues::ParseString`'s scan loop.  The C code
keeps an explicit array `KeyValues *stack[512]` with the root at index 0 and
`CurrentKV == stack[stackpos]`; here `stack` lists the open sections
innermost first (so its head is `CurrentKV` and its last element the root).
The C appends a child to its parent at `{` and then mutates it through the
stack pointer; this functional model keeps the child only on the stack while
open and appends it to the parent when it is popped (or, at end of input,
when the remaining stack is folded), which yields the same final tree.
`curKey`/`curQuoted` are `CurrentKey.key`/`CurrentKey.quoted`
(`CurrentKey.quoted` is uninitialized in the source; modelled as `false`). -/
structure ScanState where
  stack : List KeyValues
  curKey : Option Str
  curQuoted : Bool
  parsed_key : Bool
  inquote : Bool
  incomment : Bool
  buf : Str
  bracket_level : Int

/-- Outcome of handling one character: continue (with or without the
trailing whitespace-skip loop), abort reporting a fatal error (the two
mid-scan `return false` sites), or run into undefined behavior (an
out-of-bounds access on `buf`, `stack`, or `strlen(nullptr)`), after which
the C program's behavior is not modelled. -/
inductive StepRes where
  | ok (st : ScanState) (skipWs : Bool)
  | fatal (e : EError) (st : ScanState)
  | ub

/-- Append an entry to the keys of the innermost open section
(`CurrentKV->keys.push_back`). -/
def pushEntry (stk : List KeyValues) (e : Key) : List KeyValues :=
  match stk with
  | [] => []
  | cur :: rest => { cur with keys := cur.keys ++ [e] } :: rest

/-- The token-commit block that `ParseString` duplicates at its newline,
quote-closing and whitespace sites: complete the pending entry with the
buffer as its value if a key was already parsed, otherwise make the buffer
the pending key.  `q` is the value the site assigns to `CurrentKey.quoted`
(`none` at the newline site, which leaves the flag unchanged).  Entries are
pushed with `cached = NONE`: `CurrentKey`'s constructor sets it and nothing
ever changes it. -/
def commitTok (st : ScanState) (q : Option Bool) : ScanState :=
  let qd := q.getD st.curQuoted
  if st.parsed_key then
    { st with stack := pushEntry st.stack ⟨st.curKey, some st.buf, .NONE, qd⟩,
              parsed_key := false, curKey := none, curQuoted := qd, buf := [] }
  else
    { st with curKey := some st.buf, parsed_key := true, curQuoted := qd, buf := [] }

/-- One iteration of the scan loop of `KeyValues::ParseString`, in the
source's branch order.  `pc`/`nc` are the previous and next characters; the
source reads them from possibly-uninitialized or stale locals, so they come
in as `Option Char` (`none` models the uninitialized reads at the ends of
the input; the not-`'/'` interpretation of `none` is the benign resolution
of that uninitialized read).  Writing `buf[bufpos]` (terminator or appended
character) with `bufpos ≥ 512`, pushing with `stackpos ≥ 511`, popping the
root (`stack[-1]`), and naming a section from a null `CurrentKey.key` are
out-of-bounds/UB and produce `.ub`. -/
def handleChar (pc nc : Option Char) (st : ScanState) (c : Char) : StepRes :=
  if c = '\n' then
    if st.inquote then .fatal .MISSING_QUOTE st
    else if st.buf ≠ [] then
      if st.buf.length ≥ 512 then .ub
      else .ok { commitTok st none with incomment := false, inquote := false } false
    else .ok { st with incomment := false, inquote := false } false
  else if c = '/' ∧ (pc = some '/' ∨ nc = some '/') ∧ ¬st.inquote then
    .ok { st with incomment := true } false
  else if st.incomment then .ok st false
  else if c = '"' then
    if st.inquote then
      if st.buf.length ≥ 512 then .ub
      else .ok { commitTok st (some true) with inquote := false } false
    else .ok { st with inquote := true } false
  else if ¬st.inquote ∧ c = '{' then
    if st.parsed_key then
      match st.curKey with
      | none => .ub
      | some n =>
        if st.stack.length ≥ 512 then .ub
        else .ok { st with
          stack := { KeyValues.mkNamed n with quoted := st.curQuoted } :: st.stack,
          curKey := none, parsed_key := false,
          bracket_level := st.bracket_level + 1 } false
    else if st.buf ≠ [] then
      if st.buf.length ≥ 512 then .ub
      else if st.stack.length ≥ 512 then .ub
      else .ok { st with
        stack := { KeyValues.mkNamed st.buf with quoted := st.curQuoted } :: st.stack,
        buf := [], parsed_key := false,
        bracket_level := st.bracket_level + 1 } false
    else .fatal .UNNAMED_SECTION st
  else if ¬st.inquote ∧ c = '}' then
    match st.stack with
    | [] => .ub
    | [_] => .ub
    | cur :: parent :: rest =>
      .ok { st with
        stack := { parent with child_sections := parent.child_sections ++ [cur] } :: rest,
        bracket_level := st.bracket_level - 1 } false
  else if ¬(kvIsspace c) ∨ st.inquote then
    if st.buf.length ≥ 512 then .ub
    else .ok { st with buf := st.buf ++ [c] } false
  else
    if st.buf ≠ [] then
      if st.buf.length ≥ 512 then .ub
      else .ok (commitTok st (some false)) true
    else .ok st true

/-- Result of running the scan loop to its end, to a fatal abort, or into
undefined behavior. -/
inductive ScanOut where
  | done (st : ScanState)
  | fatal (e : EError) (st : ScanState)
  | ub

/-- The scan loop.  `pc` is the previous processed character; `snc` is the
stale value of the `nc` local (the source only reassigns `nc` while at least
one character follows, so at the last character it retains the previous
iteration's value).  `skip` models being inside the inner whitespace-skip
`for`: the source's loop advances `i` past every whitespace character
following a whitespace-commit without running the loop body on them, so a
skipped character only becomes the new previous character and `snc` is left
as assigned at the character that started the skip. -/
def scanGo (pc snc : Option Char) (skip : Bool) (st : ScanState) : Str → ScanOut
  | [] => .done st
  | c :: rest =>
    if skip ∧ kvIsspace c then scanGo (some c) snc true st rest
    else
      let nc : Option Char := match rest.head? with | some x => some x | none => snc
      match handleChar pc nc st c with
      | .fatal e st1 => .fatal e st1
      | .ub => .ub
      | .ok st1 sk => scanGo (some c) nc sk st1 rest

/-- Fold the sections still open at end of input onto their parents.  In the
C code these were already appended to their parents at `{`; the functional
model performs the append here instead (see `ScanState`). -/
def foldStack : List KeyValues → KeyValues
  | [] => KeyValues.new
  | cur :: rest =>
    rest.foldl
      (fun child parent =>
        { parent with child_sections := parent.child_sections ++ [child] }) cur

/-- What a parse leaves behind: the document tree (`this` after the call),
the boolean the call returns, and the sequence of `(line, char, error)`
reports delivered to the error callback (positions omitted — no claim
mentions them).  Every reported error also sets `good` to false
(`KeyValues::ReportError`). -/
structure ParseResult where
  tree : KeyValues
  ok : Bool
  errors : List EError

/-- The scan state `ParseString` starts from: stack holding only `this`,
`this->good` reset to `true`, all flags clear. -/
def initState (kv : KeyValues) : ScanState :=
  { stack := [{ kv with good := true }], curKey := none, curQuoted := false,
    parsed_key := false, inquote := false, incomment := false, buf := [],
    bracket_level := 0 }

/-- `KeyValues::ParseString`: run the scan; on a mid-scan fatal error report
it and return false keeping whatever tree was built; otherwise report
`MISSING_QUOTE` if still inside a quote and `UNTERMINATED_SECTION` if the
bracket level stayed positive, and return `good`.  `none` means the scan ran
into undefined behavior. -/
def ParseStringM (kv : KeyValues) (cs : Str) : Option ParseResult :=
  match scanGo none none false (initState kv) cs with
  | .ub => none
  | .fatal e st => some ⟨{ foldStack st.stack with good := false }, false, [e]⟩
  | .done st =>
    let errs := (if st.inquote then [EError.MISSING_QUOTE] else [])
             ++ (if 0 < st.bracket_level then [EError.UNTERMINATED_SECTION] else [])
    some ⟨{ foldStack st.stack with good := errs.isEmpty }, errs.isEmpty, errs⟩

/-- `KeyValues::ParseFile`, with the file system abstracted to the contents
the file-reading collaborator would hand over (`none` = `fopen` failed, in
which case `good` is set false and no parse runs). -/
def ParseFileM (kv : KeyValues) (contents : Option Str) : Option ParseResult :=
  match contents with
  | none => some ⟨{ kv with good := false }, false, []⟩
  | some cs => ParseStringM kv cs

/-- `KeyValues::FromString`: parse into a fresh default-constructed
document; when the parse returns false the document is deleted and the
caller receives a null pointer.  The outer `Option` is the UB escape of
`ParseStringM`; the inner one is the returned pointer (`none` = null). -/
def FromString (cs : Str) : Option (Option KeyValues) :=
  match ParseStringM KeyValues.new cs with
  | none => none
  | some r => some (if r.ok then some r.tree else none)

/-- `KeyValues::FromFile`: like `FromString` over `ParseFileM`. -/
def FromFile (contents : Option Str) : Option (Option KeyValues) :=
  match ParseFileM KeyValues.new contents with
  | none => none
  | some r => some (if r.ok then some r.tree else none)

/-- What glibc's `printf` emits for a null `%s` argument (the dump does not
guard `key.key`/`key.value` against null; well-formed trees never hit this). -/
def cNullStr : Str := '(' :: 'n' :: 'u' :: 'l' :: 'l' :: [')']

def MAX_INDENT_LEVEL : Nat := 128

/-- `indent` tab characters, the `buf` prefix of `DumpToStreamInternal`. -/
def tabs (n : Nat) : Str := List.replicate n '\t'

/-- One entry line of the dump: `key "value"` with the key quoted per its
flag and the value always quoted. -/
def dumpKey (pre : Str) (k : Key) : Str :=
  let kk := k.key.getD cNullStr
  let vv := k.value.getD cNullStr
  pre ++ (if k.quoted then '"' :: (kk ++ ['"']) else kk) ++ [' ', '"'] ++ vv ++ ['"', '\n']

/-- `KeyValues::DumpToStreamInternal` (with a non-null stream): refuses when
`indent > 128`; a named section emits its (possibly quoted) name, an opening
brace line, entries one indent deeper, children at `indent + 1`, and a
closing brace line; an unnamed section emits only entries and children.

Because the indent cutoff bounds the recursion depth, the recursion is made
structural on an explicit budget `b` kept in lockstep with the indent
(`b = MAX_INDENT_LEVEL + 1 - indent`, see `DumpToStream`): a call with
`b = 0` is exactly a call with `indent = 129`, which the guard rejects. -/
def dumpKVAux : Nat → KeyValues → Nat → Str
  | 0, _, _ => []
  | b + 1, kv, indent =>
    if indent > MAX_INDENT_LEVEL then []
    else
      let pre := tabs indent
      let headPart : Str :=
        match kv.name with
        | some n =>
          pre ++ (if kv.quoted then '"' :: (n ++ ['"']) else n) ++ ['\n'] ++ pre ++ ['{', '\n']
        | none => []
      let entryPre : Str := match kv.name with | some _ => tabs (indent + 1) | none => pre
      let entriesPart := (kv.keys.map (dumpKey entryPre)).flatten
      let childrenPart :=
        (kv.child_sections.map (fun c => dumpKVAux b c (indent + 1))).flatten
      let closePart : Str := match kv.name with | some _ => pre ++ ['}', '\n'] | none => []
      headPart ++ entriesPart ++ childrenPart ++ closePart

/-- `KeyValues::DumpToStream`. -/
def DumpToStream (kv : KeyValues) : Str := dumpKVAux (MAX_INDENT_LEVEL + 1) kv 0

/-- The structural skeleton of a tree: names, entries (key and value) in
order, children in order — the respects in which claim C3's "structurally
equal" compares trees (cache contents, the validity flag and the
quoting-style flags are presentation/bookkeeping, not structure). -/
inductive SKV where
  | node (name : Option Str) (entries : List (Option Str × Option Str)) (children : List SKV)

def entrySig (k : Key) : Option Str × Option Str := (k.key, k.value)

/-- Fuel-indexed structural skeleton extraction; at fuel `0` children are
dropped.  `normalize` instantiates the fuel above every depth this
development uses, so no truncation ever occurs. -/
def normalizeF : Nat → KeyValues → SKV
  | 0, kv => .node kv.name (kv.keys.map entrySig) []
  | f + 1, kv =>
    .node kv.name (kv.keys.map entrySig) (kv.child_sections.map (normalizeF f))

def normalize (kv : KeyValues) : SKV := normalizeF (MAX_INDENT_LEVEL + 1) kv

/-- Characters that may appear in an unquoted token so that the scanner
reads the token back verbatim: nothing the scanner treats as whitespace or
structure, no quote, and no `/` (a `/` adjacent to another `/` starts a
comment, and a `/` at the very start of the input meets an uninitialized
previous-character read). -/
def plainChar (c : Char) : Bool :=
  !(kvIsspace c || c == '"' || c == '{' || c == '}' || c == '/')

/-- Characters that may appear inside a quoted token: anything except the
closing quote and the newline (which is a fatal error inside a quote). -/
def quotedChar (c : Char) : Bool := !(c == '"' || c == '\n')

/-- A name or key token written with the given quoting style survives the
scan: bounded by the 512-byte token buffer (terminator included), quoted
tokens avoid `"` and newline, unquoted tokens are nonempty and avoid all
structural characters. -/
def wfTok (quoted : Bool) (s : Str) : Bool :=
  s.length ≤ 511 && (if quoted then s.all quotedChar else (!s.isEmpty && s.all plainChar))

/-- A well-formed entry: key and value present, key per its quoting style,
value (always dumped quoted) avoiding `"` and newline. -/
def wfKey (k : Key) : Bool :=
  match k.key, k.value with
  | some kk, some vv => wfTok k.quoted kk && vv.length ≤ 511 && vv.all quotedChar
  | _, _ => false

/-- A well-formed non-root section, with fuel bounding the admissible
nesting depth: named (per its quoting style), with well-formed entries and
children one fuel step down.  `wfSection 0` is false, so a section passing
`wfSection f` has every child chain shorter than `f`. -/
def wfSection : Nat → KeyValues → Bool
  | 0, _ => false
  | f + 1, kv =>
    match kv.name with
    | some n =>
      wfTok kv.quoted n && kv.keys.all wfKey && kv.child_sections.all (wfSection f)
    | none => false

/-- A tree "built without comments and with consistent quoting" in the sense
of claim C3: unnamed root, well-formed entries and (named, well-formed)
children throughout, and nesting shallow enough (sections at depth ≤ 127)
that the serializer's 128-level indent cutoff and the parser's 512-entry
section stack are never in play. -/
def wfRoot (kv : KeyValues) : Bool :=
  kv.name == none && kv.keys.all wfKey && kv.child_sections.all (wfSection 127)

/-- The scanner state between two tokens of well-formed input: empty
buffer, no pending key, outside quotes and comments.  `q` is the current
(leftover) value of `CurrentKey.quoted` and `bl` the bracket level. -/
def cleanSt (stk : List KeyValues) (q : Bool) (bl : Int) : ScanState :=
  { stack := stk, curKey := none, curQuoted := q, parsed_key := false,
    inquote := false, incomment := false, buf := [], bracket_level := bl }

/-- What re-parsing its own dump line makes of an entry: same key and value
strings, a fresh (`NONE`) cache, and `quoted = true` because the dump always
quotes the value and the value's closing quote sets the entry's flag. -/
def reparsedKey (k : Key) : Key := ⟨k.key, k.value, .NONE, true⟩

/-- The continuation after a chunk of dump text never starts with `/`
(tokens of well-formed trees contain no `/`, and the structural characters
are not `/`), so the previous/next-character comment test cannot fire across
a chunk boundary. -/
def noSlashHead : Str → Bool
  | [] => true
  | c :: _ => c ≠ '/'

/-- Induction predicate for claim C3, section case: scanning the dump of
one well-formed section (fuel `f` bounds its nesting) from a between-tokens
state appends to the innermost open section exactly one child whose
structural skeleton (at every sufficient fuel) equals the section's.  The
side conditions keep the serializer's indent budget and the scanner's
512-entry stack in bounds. -/
def ScanSectionP (f : Nat) : Prop :=
  ∀ (s : KeyValues), wfSection f s = true →
  ∀ (b indent : Nat), f ≤ b → indent + f ≤ 129 →
  ∀ (cur : KeyValues) (stk : List KeyValues), (cur :: stk).length + f ≤ 512 →
  ∀ (q : Bool) (bl : Int) (rest : Str), noSlashHead rest = true →
  ∀ (pc snc pc2 snc2 : Option Char),
  ∃ child q2,
    scanGo pc snc false (cleanSt (cur :: stk) q bl) (dumpKVAux b s indent ++ rest)
      = scanGo pc2 snc2 false
          (cleanSt ({ cur with child_sections := cur.child_sections ++ [child] } :: stk) q2 bl)
          rest
    ∧ ∀ g, f ≤ g → normalizeF g child = normalizeF g s

/-- Induction predicate for claim C3, children case: scanning the
concatenated dumps of a list of well-formed sections appends the
corresponding children, in order. -/
def ScanChildrenP (f : Nat) : Prop :=
  ∀ (l : List KeyValues), (∀ c ∈ l, wfSection f c = true) →
  ∀ (b indent : Nat), f ≤ b → indent + f ≤ 129 →
  ∀ (cur : KeyValues) (stk : List KeyValues), (cur :: stk).length + f ≤ 512 →
  ∀ (q : Bool) (bl : Int) (rest : Str), noSlashHead rest = true →
  ∀ (pc snc pc2 snc2 : Option Char),
  ∃ childs q2,
    scanGo pc snc false (cleanSt (cur :: stk) q bl)
        ((l.map (fun c => dumpKVAux b c indent)).flatten ++ rest)
      = scanGo pc2 snc2 false
          (cleanSt ({ cur with child_sections := cur.child_sections ++ childs } :: stk) q2 bl)
          rest
    ∧ ∀ g, f ≤ g → childs.map (normalizeF g) = l.map (normalizeF g)

/-! ## Lemmas about the getter and setter loops -/

theorem GetBool_go_append (key : Str) (d : Bool) (pre rest : List Key)
    (h : ∀ x ∈ pre, x.key ≠ some key) :
    KeyValues.GetBool.go key d (pre ++ rest) = KeyValues.GetBool.go key d rest := by
  induction pre with
  | nil => rfl
  | cons a t ih =>
    have ha := h a (by simp)
    simp only [List.cons_append, KeyValues.GetBool.go, if_neg ha]
    exact ih (fun x hx => h x (by simp [hx]))

theorem GetInt_go_append (key : Str) (d : Int) (pre rest : List Key)
    (h : ∀ x ∈ pre, x.key ≠ some key) :
    KeyValues.GetInt.go key d (pre ++ rest) = KeyValues.GetInt.go key d rest := by
  induction pre with
  | nil => rfl
  | cons a t ih =>
    have ha := h a (by simp)
    simp only [List.cons_append, KeyValues.GetInt.go, if_neg ha]
    exact ih (fun x hx => h x (by simp [hx]))

theorem GetFloat_go_append (key : Str) (d : Rat) (pre rest : List Key)
    (h : ∀ x ∈ pre, x.key ≠ some key) :
    KeyValues.GetFloat.go key d (pre ++ rest) = KeyValues.GetFloat.go key d rest := by
  induction pre with
  | nil => rfl
  | cons a t ih =>
    have ha := h a (by simp)
    simp only [List.cons_append, KeyValues.GetFloat.go, if_neg ha]
    exact ih (fun x hx => h x (by simp [hx]))

theorem GetDouble_go_append (key : Str) (d : Rat) (pre rest : List Key)
    (h : ∀ x ∈ pre, x.key ≠ some key) :
    KeyValues.GetDouble.go key d (pre ++ rest) = KeyValues.GetDouble.go key d rest := by
  induction pre with
  | nil => rfl
  | cons a t ih =>
    have ha := h a (by simp)
    simp only [List.cons_append, KeyValues.GetDouble.go, if_neg ha]
    exact ih (fun x hx => h x (by simp [hx]))

/-! ## Claim C1 -/

/-- C1 counterexample.  The claim says every typed getter returns the
supplied default when the matched entry's value is the empty string.  For
`GetInt` with default `7` on an entry whose value is the empty string, the
code instead returns `0`: `strtol("")` performs no conversion, leaves
`errno` untouched, and the `errno == 0` success test in `Key::ReadInt`
passes. -/
theorem c1_counterexample :
    KeyValues.GetInt
      { KeyValues.new with keys := [⟨some ['k'], some [], .NONE, false⟩] } ['k'] 7 = 0
    ∧ (0 : Int) ≠ 7 := by
  constructor
  · decide
  · decide

/-- C1 amended: the getters return the first (exact, case-sensitive) match;
every getter returns the default when no entry matches or when the matched
entry's value is null; `get_bool` returns the default when the value parses
as neither boolean form; but `get_int`/`get_float`/`get_double` return the
`strtol`/`strtod` prefix-parse of the value — `0` for the empty string or a
value with no leading number — and fall back to the default only when the
conversion sets `errno` (`ERANGE`).  (Entries with `cached = NONE`, i.e. as
the parser creates them; a cached value of the requested kind is returned
directly.) -/
theorem c1_amended (kv : KeyValues) (key : Str) (db : Bool) (di : Int) (df dd : Rat) :
    ((∀ e ∈ kv.keys, e.key ≠ some key) →
      kv.GetBool key db = db ∧ kv.GetInt key di = di ∧
        kv.GetFloat key df = df ∧ kv.GetDouble key dd = dd)
    ∧ (∀ pre e post, kv.keys = pre ++ e :: post → (∀ x ∈ pre, x.key ≠ some key) →
        e.key = some key → e.cached = .NONE →
        ((e.value = none →
            kv.GetBool key db = db ∧ kv.GetInt key di = di ∧
              kv.GetFloat key df = df ∧ kv.GetDouble key dd = dd)
          ∧ (∀ s, e.value = some s →
              (kv.GetBool key db =
                (if strcaseEq s ( "true".toList) || s == ( "1".toList) then true
                 else if strcaseEq s ( "false".toList) || s == ( "0".toList) then false
                 else db))
              ∧ ((strtol s).2 = false → kv.GetInt key di = toCInt (strtol s).1)
              ∧ ((strtol s).2 = true → kv.GetInt key di = di)
              ∧ ((strtod s).2 = false →
                  kv.GetFloat key df = (strtod s).1 ∧ kv.GetDouble key dd = (strtod s).1)
              ∧ ((strtod s).2 = true →
                  kv.GetFloat key df = df ∧ kv.GetDouble key dd = dd)))) := by
  constructor
  · intro h
    refine ⟨?_, ?_, ?_, ?_⟩
    · show KeyValues.GetBool.go key db kv.keys = db
      have := GetBool_go_append key db kv.keys [] h
      simpa using this
    · show KeyValues.GetInt.go key di kv.keys = di
      have := GetInt_go_append key di kv.keys [] h
      simpa using this
    · show KeyValues.GetFloat.go key df kv.keys = df
      have := GetFloat_go_append key df kv.keys [] h
      simpa using this
    · show KeyValues.GetDouble.go key dd kv.keys = dd
      have := GetDouble_go_append key dd kv.keys [] h
      simpa using this
  · intro pre e post hsplit hpre hkey hcached
    have hb : kv.GetBool key db = KeyValues.GetBool.go key db (e :: post) := by
      show KeyValues.GetBool.go key db kv.keys = _
      rw [hsplit]; exact GetBool_go_append key db pre (e :: post) hpre
    have hi : kv.GetInt key di = KeyValues.GetInt.go key di (e :: post) := by
      show KeyValues.GetInt.go key di kv.keys = _
      rw [hsplit]; exact GetInt_go_append key di pre (e :: post) hpre
    have hf : kv.GetFloat key df = KeyValues.GetFloat.go key df (e :: post) := by
      show KeyValues.GetFloat.go key df kv.keys = _
      rw [hsplit]; exact GetFloat_go_append key df pre (e :: post) hpre
    have hd : kv.GetDouble key dd = KeyValues.GetDouble.go key dd (e :: post) := by
      show KeyValues.GetDouble.go key dd kv.keys = _
      rw [hsplit]; exact GetDouble_go_append key dd pre (e :: post) hpre
    constructor
    · intro hv
      refine ⟨?_, ?_, ?_, ?_⟩
      · rw [hb]; simp [KeyValues.GetBool.go, hkey, Key.ReadBool, hcached, hv]
      · rw [hi]; simp [KeyValues.GetInt.go, hkey, Key.ReadInt, hcached, hv]
      · rw [hf]; simp [KeyValues.GetFloat.go, hkey, Key.ReadFloat, hcached, hv]
      · rw [hd]; simp [KeyValues.GetDouble.go, hkey, Key.ReadFloat, hcached, hv]
    · intro s hv
      refine ⟨?_, ?_, ?_, ?_, ?_⟩
      · rw [hb]
        simp only [KeyValues.GetBool.go, if_pos hkey, Key.ReadBool, hcached, hv]
        split_ifs <;> simp_all
      · intro her
        rw [hi]
        rcases hst : strtol s with ⟨v, fl⟩
        have hfl : fl = false := by rw [hst] at her; exact her
        simp [KeyValues.GetInt.go, hkey, Key.ReadInt, hcached, hv, hst, hfl]
      · intro her
        rw [hi]
        rcases hst : strtol s with ⟨v, fl⟩
        have hfl : fl = true := by rw [hst] at her; exact her
        simp [KeyValues.GetInt.go, hkey, Key.ReadInt, hcached, hv, hst, hfl]
      · intro her
        rcases hst : strtod s with ⟨v, fl⟩
        have hfl : fl = false := by rw [hst] at her; exact her
        constructor
        · rw [hf]
          simp [KeyValues.GetFloat.go, hkey, Key.ReadFloat, hcached, hv, hst, hfl]
        · rw [hd]
          simp [KeyValues.GetDouble.go, hkey, Key.ReadFloat, hcached, hv, hst, hfl]
      · intro her
        rcases hst : strtod s with ⟨v, fl⟩
        have hfl : fl = true := by rw [hst] at her; exact her
        constructor
        · rw [hf]
          simp [KeyValues.GetFloat.go, hkey, Key.ReadFloat, hcached, hv, hst, hfl]
        · rw [hd]
          simp [KeyValues.GetDouble.go, hkey, Key.ReadFloat, hcached, hv, hst, hfl]

/-- Witness for `c1_amended`: a section holding the single entry
`k = "5"`, on which `get_int` with default `7` parses `5` and `get_bool`
with default `true` falls back to the default. -/
theorem c1_amended_witness :
    KeyValues.GetInt
        { KeyValues.new with keys := [⟨some ['k'], some ['5'], .NONE, false⟩] } ['k'] 7 = 5
    ∧ KeyValues.GetBool
        { KeyValues.new with keys := [⟨some ['k'], some ['5'], .NONE, false⟩] } ['k'] true = true := by
  have h := c1_amended
    { KeyValues.new with keys := [⟨some ['k'], some ['5'], .NONE, false⟩] } ['k'] true 7 3 3
  have h2 := (h.2 [] ⟨some ['k'], some ['5'], .NONE, false⟩ [] rfl (by simp) rfl rfl).2 ['5'] rfl
  constructor
  · have hi := h2.2.1 (by decide)
    rw [hi]; decide
  · have hb := h2.1
    rw [hb]; decide

/-! ## Claim C2 -/

/-- C2 (code bug).  `Key::ReadInt` does populate the cache of the key object
it runs on (first conjunct), but the getters iterate the entry vector with
`for (auto _key : this->keys)` — each entry is copied by value, so the cache
write lands on a local copy and the stored entry stays `cached = NONE`; the
section observable to the caller is never changed by a read (which is why
the model's `GetInt` has no state output).  Consequently a second `get_int`
re-parses the string: with the raw value corrupted from `"5"` to `"x"` after
a first read that returned `5`, the second call returns `strtol("x") = 0`,
not the claimed cached `5`. -/
theorem c2_cache_discarded :
    Key.ReadInt ⟨some ['k'], some ['5'], .NONE, false⟩ =
      (5, true, ⟨some ['k'], some ['5'], .IVAL 5, false⟩)
    ∧ KeyValues.GetInt
        { KeyValues.new with keys := [⟨some ['k'], some ['5'], .NONE, false⟩] } ['k'] 0 = 5
    ∧ KeyValues.GetInt
        { KeyValues.new with keys := [⟨some ['k'], some ['x'], .NONE, false⟩] } ['k'] 0 = 0
    ∧ (0 : Int) ≠ 5 := by
  refine ⟨by decide, by decide, by decide, by decide⟩

/-! ## Claims C4 and C5: setter loop lemmas -/

theorem SetBool_go_append (key : Str) (b : Bool) (pre rest : List Key)
    (h : ∀ x ∈ pre, x.key ≠ some key) :
    KeyValues.SetBool.go key b (pre ++ rest) = pre ++ KeyValues.SetBool.go key b rest := by
  induction pre with
  | nil => rfl
  | cons a t ih =>
    have ha := h a (by simp)
    simp only [List.cons_append, KeyValues.SetBool.go, if_neg ha]
    exact congrArg (List.cons a) (ih (fun x hx => h x (by simp [hx])))

theorem SetInt_go_append (key : Str) (i : Int) (pre rest : List Key)
    (h : ∀ x ∈ pre, x.key ≠ some key) :
    KeyValues.SetInt.go key i (pre ++ rest) = pre ++ KeyValues.SetInt.go key i rest := by
  induction pre with
  | nil => rfl
  | cons a t ih =>
    have ha := h a (by simp)
    simp only [List.cons_append, KeyValues.SetInt.go, if_neg ha]
    exact congrArg (List.cons a) (ih (fun x hx => h x (by simp [hx])))

theorem SetFloat_go_append (key : Str) (f : Rat) (pre rest : List Key)
    (h : ∀ x ∈ pre, x.key ≠ some key) :
    KeyValues.SetFloat.go key f (pre ++ rest) = pre ++ KeyValues.SetFloat.go key f rest := by
  induction pre with
  | nil => rfl
  | cons a t ih =>
    have ha := h a (by simp)
    simp only [List.cons_append, KeyValues.SetFloat.go, if_neg ha]
    exact congrArg (List.cons a) (ih (fun x hx => h x (by simp [hx])))

theorem SetString_go_append (key : Str) (s : Str) (pre rest : List Key)
    (h : ∀ x ∈ pre, x.key ≠ some key) :
    KeyValues.SetString.go key s (pre ++ rest) = pre ++ KeyValues.SetString.go key s rest := by
  induction pre with
  | nil => rfl
  | cons a t ih =>
    have ha := h a (by simp)
    simp only [List.cons_append, KeyValues.SetString.go, if_neg ha]
    exact congrArg (List.cons a) (ih (fun x hx => h x (by simp [hx])))

theorem RemoveKey_go_append (key : Str) (pre rest : List Key)
    (h : ∀ x ∈ pre, x.value ≠ some key) :
    KeyValues.RemoveKey.go key (pre ++ rest) = pre ++ KeyValues.RemoveKey.go key rest := by
  induction pre with
  | nil => rfl
  | cons a t ih =>
    have ha := h a (by simp)
    simp only [List.cons_append, KeyValues.RemoveKey.go, if_neg ha]
    exact congrArg (List.cons a) (ih (fun x hx => h x (by simp [hx])))

/-! ## Claim C4 -/

/-- C4 counterexample.  The claim says the typed setters overwrite "both its
value and its cache".  `SetInt` on the entry `k = "5"` installs the cached
integer but leaves the string value at `"5"` — the value field is not
overwritten. -/
theorem c4_counterexample :
    (KeyValues.SetInt
        { KeyValues.new with keys := [⟨some ['k'], some ['5'], .NONE, false⟩] } ['k'] 42).keys
      = [⟨some ['k'], some ['5'], .IVAL 42, false⟩]
    ∧ (some ['5'] : Option Str) ≠ some ['4', '2'] := by
  refine ⟨by decide, by decide⟩

/-- C4 amended: `set_bool`/`set_int`/`set_float` locate the first entry
whose key matches and overwrite only its cache (tag and cached value),
leaving the string value untouched; `set_string` overwrites the string value
and resets the cache tag to `NONE`; all four are no-ops when no entry has
the key — no entry is created and the section is unchanged. -/
theorem c4_amended (kv : KeyValues) (key : Str) (b : Bool) (i : Int) (f : Rat) (s : Str) :
    ((∀ e ∈ kv.keys, e.key ≠ some key) →
      kv.SetBool key b = kv ∧ kv.SetInt key i = kv ∧
        kv.SetFloat key f = kv ∧ kv.SetString key s = kv)
    ∧ (∀ pre e post, kv.keys = pre ++ e :: post → (∀ x ∈ pre, x.key ≠ some key) →
        e.key = some key →
        kv.SetBool key b = { kv with keys := pre ++ { e with cached := .BVAL b } :: post }
        ∧ kv.SetInt key i = { kv with keys := pre ++ { e with cached := .IVAL i } :: post }
        ∧ kv.SetFloat key f = { kv with keys := pre ++ { e with cached := .FVAL f } :: post }
        ∧ kv.SetString key s =
            { kv with keys := pre ++ { e with cached := .NONE, value := some s } :: post }) := by
  constructor
  · intro h
    refine ⟨?_, ?_, ?_, ?_⟩
    · show ({ kv with keys := KeyValues.SetBool.go key b kv.keys } : KeyValues) = kv
      have hgo : KeyValues.SetBool.go key b kv.keys = kv.keys := by
        have := SetBool_go_append key b kv.keys [] h
        simpa [KeyValues.SetBool.go] using this
      rw [hgo]
      cases kv
      rfl
    · show ({ kv with keys := KeyValues.SetInt.go key i kv.keys } : KeyValues) = kv
      have hgo : KeyValues.SetInt.go key i kv.keys = kv.keys := by
        have := SetInt_go_append key i kv.keys [] h
        simpa [KeyValues.SetInt.go] using this
      rw [hgo]
      cases kv
      rfl
    · show ({ kv with keys := KeyValues.SetFloat.go key f kv.keys } : KeyValues) = kv
      have hgo : KeyValues.SetFloat.go key f kv.keys = kv.keys := by
        have := SetFloat_go_append key f kv.keys [] h
        simpa [KeyValues.SetFloat.go] using this
      rw [hgo]
      cases kv
      rfl
    · show ({ kv with keys := KeyValues.SetString.go key s kv.keys } : KeyValues) = kv
      have hgo : KeyValues.SetString.go key s kv.keys = kv.keys := by
        have := SetString_go_append key s kv.keys [] h
        simpa [KeyValues.SetString.go] using this
      rw [hgo]
      cases kv
      rfl
  · intro pre e post hsplit hpre hkey
    refine ⟨?_, ?_, ?_, ?_⟩
    · show ({ kv with keys := KeyValues.SetBool.go key b kv.keys } : KeyValues) = _
      rw [hsplit, SetBool_go_append key b pre (e :: post) hpre]
      simp only [KeyValues.SetBool.go, if_pos hkey]
    · show ({ kv with keys := KeyValues.SetInt.go key i kv.keys } : KeyValues) = _
      rw [hsplit, SetInt_go_append key i pre (e :: post) hpre]
      simp only [KeyValues.SetInt.go, if_pos hkey]
    · show ({ kv with keys := KeyValues.SetFloat.go key f kv.keys } : KeyValues) = _
      rw [hsplit, SetFloat_go_append key f pre (e :: post) hpre]
      simp only [KeyValues.SetFloat.go, if_pos hkey]
    · show ({ kv with keys := KeyValues.SetString.go key s kv.keys } : KeyValues) = _
      rw [hsplit, SetString_go_append key s pre (e :: post) hpre]
      simp only [KeyValues.SetString.go, if_pos hkey]

/-- Witness for `c4_amended`: on the single-entry section `k = "5"`,
`SetInt 42` installs only the cached integer, and on a mismatched key the
setter is a no-op. -/
theorem c4_amended_witness :
    KeyValues.SetInt
        { KeyValues.new with keys := [⟨some ['k'], some ['5'], .NONE, false⟩] } ['k'] 42
      = { KeyValues.new with keys := [⟨some ['k'], some ['5'], .IVAL 42, false⟩] }
    ∧ KeyValues.SetInt
        { KeyValues.new with keys := [⟨some ['k'], some ['5'], .NONE, false⟩] } ['z'] 42
      = { KeyValues.new with keys := [⟨some ['k'], some ['5'], .NONE, false⟩] } := by
  constructor
  · have h := (c4_amended
      { KeyValues.new with keys := [⟨some ['k'], some ['5'], .NONE, false⟩] }
      ['k'] true 42 3 ['v']).2 [] ⟨some ['k'], some ['5'], .NONE, false⟩ [] rfl (by simp) rfl
    exact h.2.1
  · have h := (c4_amended
      { KeyValues.new with keys := [⟨some ['k'], some ['5'], .NONE, false⟩] }
      ['z'] true 42 3 ['v']).1 (by decide)
    exact h.2.1

/-! ## Claim C5 -/

/-- C5: `RemoveKey` erases the first entry whose *value* field equals the
argument, keeping every other entry in order (the remaining list is the
concatenation of the unchanged prefix and suffix); when no entry's value
matches, the section is left entirely unchanged. -/
theorem c5_remove_key (kv : KeyValues) (key : Str) :
    ((∀ e ∈ kv.keys, e.value ≠ some key) → kv.RemoveKey key = kv)
    ∧ (∀ pre e post, kv.keys = pre ++ e :: post → (∀ x ∈ pre, x.value ≠ some key) →
        e.value = some key → kv.RemoveKey key = { kv with keys := pre ++ post }) := by
  constructor
  · intro h
    show ({ kv with keys := KeyValues.RemoveKey.go key kv.keys } : KeyValues) = kv
    have hgo : KeyValues.RemoveKey.go key kv.keys = kv.keys := by
      have := RemoveKey_go_append key kv.keys [] h
      simpa [KeyValues.RemoveKey.go] using this
    rw [hgo]
    cases kv
    rfl
  · intro pre e post hsplit hpre hval
    show ({ kv with keys := KeyValues.RemoveKey.go key kv.keys } : KeyValues) = _
    rw [hsplit, RemoveKey_go_append key pre (e :: post) hpre]
    simp only [KeyValues.RemoveKey.go, if_pos hval]

/-- Witness for `c5_remove_key`: removing by the *value* `"y"` deletes the
second entry and keeps the first; removing by the key name `"b"` (which no
value equals) changes nothing. -/
theorem c5_remove_key_witness :
    KeyValues.RemoveKey
        { KeyValues.new with keys :=
            [⟨some ['a'], some ['x'], .NONE, false⟩, ⟨some ['b'], some ['y'], .NONE, false⟩] } ['y']
      = { KeyValues.new with keys := [⟨some ['a'], some ['x'], .NONE, false⟩] }
    ∧ KeyValues.RemoveKey
        { KeyValues.new with keys :=
            [⟨some ['a'], some ['x'], .NONE, false⟩, ⟨some ['b'], some ['y'], .NONE, false⟩] } ['b']
      = { KeyValues.new with keys :=
            [⟨some ['a'], some ['x'], .NONE, false⟩, ⟨some ['b'], some ['y'], .NONE, false⟩] } := by
  constructor
  · have h := (c5_remove_key
      { KeyValues.new with keys :=
          [⟨some ['a'], some ['x'], .NONE, false⟩, ⟨some ['b'], some ['y'], .NONE, false⟩] } ['y']).2
      [⟨some ['a'], some ['x'], .NONE, false⟩] ⟨some ['b'], some ['y'], .NONE, false⟩ []
      rfl (by decide) rfl
    exact h
  · exact (c5_remove_key
      { KeyValues.new with keys :=
          [⟨some ['a'], some ['x'], .NONE, false⟩, ⟨some ['b'], some ['y'], .NONE, false⟩] } ['b']).1
      (by decide)

/-! ## Scanner lemmas shared by the parser claims -/

set_option maxHeartbeats 1000000 in
/-- Exhaustive characterization of the scanner's mid-scan fatal aborts: the
per-character handler reports a fatal error exactly at a newline inside a
quote (`MISSING_QUOTE`) and at a `{` outside quotes *and outside a line
comment* with neither a pending key nor buffered text (`UNNAMED_SECTION`);
in both cases the state is returned unchanged. -/
theorem handleChar_fatal_iff (pc nc : Option Char) (st : ScanState) (c : Char) (e : EError)
    (st1 : ScanState) :
    handleChar pc nc st c = .fatal e st1 ↔
      (st1 = st ∧
        ((c = '\n' ∧ st.inquote = true ∧ e = .MISSING_QUOTE) ∨
         (c = '{' ∧ st.inquote = false ∧ st.incomment = false ∧ st.parsed_key = false ∧
           st.buf = [] ∧ e = .UNNAMED_SECTION))) := by
  unfold handleChar
  split_ifs <;> (try split) <;> (try simp_all) <;> tauto

/-- A fatal step aborts the scan at once: the remaining input is ignored. -/
theorem scanGo_cons_fatal (pc snc : Option Char) (st : ScanState) (c : Char) (rest : Str)
    (e : EError) (st1 : ScanState)
    (h : handleChar pc (match rest.head? with | some x => some x | none => snc) st c
           = .fatal e st1) :
    scanGo pc snc false st (c :: rest) = .fatal e st1 := by
  rw [scanGo]
  simp [h]

/-! ## Claim C6 -/

/-- C6 counterexample.  On the input `// {\n` the `{` stands outside quotes
with no pending key and an empty token buffer — by the claim, parsing should
abort with `UNNAMED_SECTION` and return `ok = false`.  It does not: the `{`
is inside a line comment, the scanner discards it, and the parse succeeds
with no errors. -/
theorem c6_counterexample :
    (ParseStringM KeyValues.new ['/', '/', ' ', '{', '\n']).map (fun r => (r.ok, r.errors))
      = some (true, []) := by
  rfl

/-- C6 amended: parsing aborts immediately — reporting the error, leaving
the state as is, and scanning no further characters — in exactly two
mid-scan cases: a newline while inside an unterminated quote
(`MISSING_QUOTE`), and a `{` outside quotes *and outside a line comment*
with neither a pending completed key nor a nonempty token buffer
(`UNNAMED_SECTION`). -/
theorem c6_amended :
    (∀ (pc nc : Option Char) (st : ScanState) (c : Char) (e : EError) (st1 : ScanState),
      handleChar pc nc st c = .fatal e st1 ↔
        (st1 = st ∧
          ((c = '\n' ∧ st.inquote = true ∧ e = .MISSING_QUOTE) ∨
           (c = '{' ∧ st.inquote = false ∧ st.incomment = false ∧ st.parsed_key = false ∧
             st.buf = [] ∧ e = .UNNAMED_SECTION))))
    ∧ (∀ (pc snc : Option Char) (st : ScanState) (c : Char) (rest : Str) (e : EError)
        (st1 : ScanState),
        handleChar pc (match rest.head? with | some x => some x | none => snc) st c
            = .fatal e st1 →
        scanGo pc snc false st (c :: rest) = .fatal e st1) :=
  ⟨handleChar_fatal_iff, scanGo_cons_fatal⟩

/-- Witness for `c6_amended`: a newline inside an open quote aborts with
`MISSING_QUOTE`, leaving the state unchanged. -/
theorem c6_amended_witness :
    handleChar none none
      { stack := [⟨none, [], [], true, false⟩], curKey := none, curQuoted := false,
        parsed_key := false, inquote := true, incomment := false, buf := [],
        bracket_level := 0 } '\n'
      = .fatal .MISSING_QUOTE
          { stack := [⟨none, [], [], true, false⟩], curKey := none, curQuoted := false,
            parsed_key := false, inquote := true, incomment := false, buf := [],
            bracket_level := 0 } :=
  (c6_amended.1 none none _ '\n' .MISSING_QUOTE _).2 ⟨rfl, Or.inl ⟨rfl, rfl, rfl⟩⟩

/-! ## Claim C7 -/

/-- C7: when the scan runs to the end of the input, the parse reports
`MISSING_QUOTE` if still inside a quote and `UNTERMINATED_SECTION` if the
bracket level stayed positive; every reported error makes the call return
false and marks the document invalid; and the returned tree is the fold of
the final section stack — every section and entry committed during the scan
remains in the document, errors or not. -/
theorem c7_end_of_input (kv : KeyValues) (cs : Str) (st : ScanState)
    (hdone : scanGo none none false (initState kv) cs = .done st) :
    ∃ r, ParseStringM kv cs = some r
      ∧ (st.inquote = true → EError.MISSING_QUOTE ∈ r.errors)
      ∧ (0 < st.bracket_level → EError.UNTERMINATED_SECTION ∈ r.errors)
      ∧ (r.errors ≠ [] → r.ok = false ∧ r.tree.good = false)
      ∧ r.tree = { foldStack st.stack with good := r.ok }
      ∧ (r.ok = false ↔ (st.inquote = true ∨ 0 < st.bracket_level)) := by
  unfold ParseStringM
  rw [hdone]
  refine ⟨_, rfl, ?_, ?_, ?_, ?_, ?_⟩
  · intro h; simp [h]
  · intro h; simp [h]
  · intro h
    constructor
    · by_contra hok
      simp only [Bool.not_eq_false] at hok
      rw [List.isEmpty_iff] at hok
      exact h hok
    · by_cases h1 : st.inquote = true <;> by_cases h2 : 0 < st.bracket_level <;>
        simp_all [List.isEmpty_iff]
  · rfl
  · by_cases h1 : st.inquote = true <;> by_cases h2 : 0 < st.bracket_level <;>
      simp_all [List.isEmpty_iff]

/-- Witness for `c7_end_of_input`: the one-character input `"` ends the scan
still inside a quote; the parse reports `MISSING_QUOTE`, returns false, and
the document is marked invalid but returned. -/
theorem c7_end_of_input_witness :
    ∃ r, ParseStringM KeyValues.new ['"'] = some r
      ∧ EError.MISSING_QUOTE ∈ r.errors ∧ r.ok = false ∧ r.tree.good = false := by
  obtain ⟨r, hr, h1, _, h3, _, _⟩ := c7_end_of_input KeyValues.new ['"']
    { stack := [⟨none, [], [], true, false⟩], curKey := none, curQuoted := false,
      parsed_key := false, inquote := true, incomment := false, buf := [],
      bracket_level := 0 } rfl
  have hmem := h1 rfl
  have hne : r.errors ≠ [] := by
    intro hnil; rw [hnil] at hmem; exact List.not_mem_nil _ hmem
  exact ⟨r, hr, hmem, (h3 hne).1, (h3 hne).2⟩

/-! ## Claim C8 -/

set_option maxHeartbeats 4000000 in
/-- C8 counterexample.  The claim says the validity flag is monotone across
every sequence of operations including repeated parses.  But `ParseString`
begins with `this->good = true`: after a failed parse (`good = false`), a
second, successful parse on the same document leaves `good = true` again. -/
theorem c8_counterexample :
    ((ParseStringM KeyValues.new ['"']).map fun r => r.tree.good) = some false
    ∧ ((ParseStringM KeyValues.new ['"']).bind fun r1 =>
        (ParseStringM r1.tree ['k', ' ', 'v', '\n']).map fun r2 => r2.tree.good)
      = some true := by
  exact ⟨rfl, rfl⟩

/-- C8 amended: `good` is reset to true at the start of every
`ParseString` call (so the outcome of a parse is independent of the
document's previous flag, and a successful re-parse revives an invalid
document); *within* one parse the flag ends up false exactly when an error
is reported, and it always mirrors the call's return value; every non-parse
operation (`SetBool`/`SetInt`/`SetFloat`/`SetString`/`ClearKey`/`RemoveKey`)
preserves the flag. -/
theorem c8_amended :
    (∀ (kv : KeyValues) (b : Bool) (cs : Str),
      ParseStringM { kv with good := b } cs = ParseStringM kv cs)
    ∧ (∀ (kv : KeyValues) (cs : Str) (r : ParseResult), ParseStringM kv cs = some r →
        r.tree.good = r.ok ∧ (r.ok = false ↔ r.errors ≠ []))
    ∧ (∀ (kv : KeyValues) (k : Str) (bv : Bool) (iv : Int) (fv : Rat) (sv : Str),
        (kv.SetBool k bv).good = kv.good ∧ (kv.SetInt k iv).good = kv.good ∧
        (kv.SetFloat k fv).good = kv.good ∧ (kv.SetString k sv).good = kv.good ∧
        (kv.ClearKey k).good = kv.good ∧ (kv.RemoveKey k).good = kv.good) := by
  refine ⟨fun kv b cs => rfl, ?_, fun kv k bv iv fv sv => ⟨rfl, rfl, rfl, rfl, rfl, rfl⟩⟩
  intro kv cs r h
  unfold ParseStringM at h
  rcases hscan : scanGo none none false (initState kv) cs with st | ⟨e, st⟩ | _ <;>
    rw [hscan] at h
  · simp only [Option.some.injEq] at h
    subst h
    constructor
    · rfl
    · simp [List.isEmpty_iff]
  · simp only [Option.some.injEq] at h
    subst h
    exact ⟨rfl, by simp⟩
  · exact absurd h (by simp)

/-- Witness for `c8_amended` at a concrete document and input. -/
theorem c8_amended_witness :
    ParseStringM { KeyValues.new with good := false } ['"'] = ParseStringM KeyValues.new ['"']
    ∧ (⟨⟨none, [], [], false, false⟩, false, [EError.MISSING_QUOTE]⟩ : ParseResult).tree.good
        = false := by
  have h1 := c8_amended.1 KeyValues.new false ['"']
  have h2 := c8_amended.2.1 KeyValues.new ['"']
    ⟨⟨none, [], [], false, false⟩, false, [EError.MISSING_QUOTE]⟩ rfl
  exact ⟨h1, by rw [h2.1]⟩

/-! ## Claim C9 -/

/-- C9 counterexample.  The claim says an unmatched `}` never makes the
scanner read below the bottom of the section stack.  On the input `}` the
handler executes `CurrentKV = stack[--stackpos]` with `stackpos == 0`: an
out-of-bounds read of `stack[-1]`, modelled as the undefined-behavior
outcome (`ParseStringM = none`). -/
theorem c9_counterexample : ParseStringM KeyValues.new ['}'] = none := by
  rfl

set_option maxHeartbeats 2000000 in
/-- C9 amended: handling `}` outside quotes pops unconditionally — there is
no underflow guard.  Whenever the stack holds only the root, a `}` (outside
quotes and comments) performs the out-of-bounds `stack[-1]` read (the `.ub`
outcome); in particular any input starting with `}` runs into it
immediately, whatever follows. -/
theorem c9_amended :
    (∀ (pc nc : Option Char) (st : ScanState) (x : KeyValues),
      st.stack = [x] → st.inquote = false → st.incomment = false →
      handleChar pc nc st '}' = .ub)
    ∧ (∀ rest : Str, scanGo none none false (initState KeyValues.new) ('}' :: rest) = .ub) := by
  constructor
  · intro pc nc st x hstk hq hcom
    unfold handleChar
    split_ifs <;> simp_all
  · intro rest
    rw [scanGo]
    have h : handleChar none
        (match rest.head? with | some x => some x | none => none)
        (initState KeyValues.new) '}' = .ub := by
      unfold handleChar
      split_ifs <;> simp_all [initState]
    simp [h]

/-- Witness for `c9_amended`: the pop at the root on a bare `}`. -/
theorem c9_amended_witness :
    handleChar none none (initState KeyValues.new) '}' = .ub :=
  c9_amended.1 none none (initState KeyValues.new) ⟨none, [], [], true, false⟩ rfl rfl rfl

/-! ## Claim C10 -/

/-- C10: whenever a parse fails, the convenience constructors `FromString`
and `FromFile` delete the freshly built document and hand the caller a null
pointer — the partial tree and its validity flag are unreachable through
these entry points; on success they return the parsed document.  A failed
`fopen` in `FromFile` likewise yields null.  (`ParseString` itself, by
contrast, returns with the partial tree in place — the `r` here.) -/
theorem c10_from_null (cs : Str) (r : ParseResult)
    (h : ParseStringM KeyValues.new cs = some r) :
    (r.ok = false → FromString cs = some none ∧ FromFile (some cs) = some none)
    ∧ (r.ok = true → FromString cs = some (some r.tree) ∧ FromFile (some cs) = some (some r.tree))
    ∧ FromFile none = some none := by
  refine ⟨?_, ?_, rfl⟩
  · intro hok
    constructor <;> simp [FromString, FromFile, ParseFileM, h, hok]
  · intro hok
    constructor <;> simp [FromString, FromFile, ParseFileM, h, hok]

/-- Witness for `c10_from_null`: the failing input `"` gives a null pointer
from both convenience entry points. -/
theorem c10_from_null_witness :
    FromString ['"'] = some none ∧ FromFile (some ['"']) = some none := by
  have h := c10_from_null ['"']
    ⟨⟨none, [], [], false, false⟩, false, [EError.MISSING_QUOTE]⟩ rfl
  exact h.1 rfl

/-! ## Claim C3: scanning the serializer's output

The development proceeds per character class (one lemma per `handleChar`
branch the dump text can reach), then per chunk of dump text (token, entry
line, section block), then by induction over the tree. -/

/-- One non-fatal scan step, for a flag that cannot trigger the skip test. -/
theorem scanGo_cons_step (pc snc : Option Char) (b : Bool) (st : ScanState) (c : Char)
    (rest : Str) (st1 : ScanState) (sk : Bool)
    (hb : b = false ∨ kvIsspace c = false)
    (h : handleChar pc (match rest.head? with | some x => some x | none => snc) st c
           = .ok st1 sk) :
    scanGo pc snc b st (c :: rest)
      = scanGo (some c) (match rest.head? with | some x => some x | none => snc) sk st1 rest := by
  rw [scanGo]
  rcases hb with hb | hb <;> simp [hb, h]

/-- `handleChar` ignores its previous/next-character arguments except in the
comment test, which requires the current character to be `/` outside a
quote. -/
theorem handleChar_pc_irrel (pc1 nc1 pc2 nc2 : Option Char) (st : ScanState) (c : Char)
    (hc : c ≠ '/' ∨ st.inquote = true) :
    handleChar pc1 nc1 st c = handleChar pc2 nc2 st c := by
  have hng : ∀ (a b : Option Char),
      ¬(c = '/' ∧ (a = some '/' ∨ b = some '/') ∧ ¬st.inquote = true) := by
    intro a b h
    rcases hc with hc | hc
    · exact hc h.1
    · exact h.2.2 hc
  unfold handleChar
  by_cases h1 : c = '\n'
  · simp [h1]
  · rw [if_neg h1, if_neg h1, if_neg (hng pc1 nc1), if_neg (hng pc2 nc2)]

/-- With the skip flag down, the previous/stale-next characters only matter
when the head character is `/`. -/
theorem scanGo_retarget (pc1 snc1 pc2 snc2 : Option Char) (st : ScanState) (rest : Str)
    (hsl : noSlashHead rest = true ∨ st.inquote = true) :
    scanGo pc1 snc1 false st rest = scanGo pc2 snc2 false st rest := by
  cases rest with
  | nil => rfl
  | cons x t =>
    have hx : x ≠ '/' ∨ st.inquote = true := by
      rcases hsl with hsl | hsl
      · exact Or.inl (by simpa [noSlashHead] using hsl)
      · exact Or.inr hsl
    rw [scanGo, scanGo]
    simp only [Bool.false_eq_true, false_and, if_false]
    cases t with
    | nil =>
      simp only [List.head?_nil]
      rw [handleChar_pc_irrel pc1 snc1 pc2 snc2 st x hx]
      rcases handleChar pc2 snc2 st x with _ | _ | _ <;> simp [scanGo]
    | cons y t2 =>
      simp only [List.head?_cons]
      rw [handleChar_pc_irrel pc1 (some y) pc2 (some y) st x hx]

/-- `scanGo_retarget`, in addition discharging a raised skip flag when the
head of the remaining input is not whitespace. -/
theorem scanGo_retarget_skip (pc1 snc1 pc2 snc2 : Option Char) (b : Bool) (st : ScanState)
    (rest : Str) (hsl : noSlashHead rest = true ∨ st.inquote = true)
    (hb : b = false ∨ ∀ y, rest.head? = some y → kvIsspace y = false) :
    scanGo pc1 snc1 b st rest = scanGo pc2 snc2 false st rest := by
  rcases hb with hb | hb
  · subst hb; exact scanGo_retarget pc1 snc1 pc2 snc2 st rest hsl
  · cases rest with
    | nil => rfl
    | cons x t =>
      have hx : kvIsspace x = false := hb x rfl
      rw [scanGo]
      simp only [hx, and_false, Bool.and_eq_true, and_false, if_false]
      conv_rhs => rw [scanGo_retarget pc2 snc2 pc1 snc1 st (x :: t) hsl]
      rw [scanGo]
      simp [hx]

/-- Branch lemma: a plain token character is appended to the buffer. -/
theorem handleChar_plain (pc nc : Option Char) (st : ScanState) (c : Char)
    (hp : plainChar c = true) (hq : st.inquote = false) (hcom : st.incomment = false)
    (hlen : st.buf.length < 512) :
    handleChar pc nc st c = .ok { st with buf := st.buf ++ [c] } false := by
  have h1 : c ≠ '\n' := by intro h; subst h; exact absurd hp (by decide)
  have h2 : c ≠ '/' := by intro h; subst h; exact absurd hp (by decide)
  have h3 : c ≠ '"' := by intro h; subst h; exact absurd hp (by decide)
  have h4 : c ≠ '{' := by intro h; subst h; exact absurd hp (by decide)
  have h5 : c ≠ '}' := by intro h; subst h; exact absurd hp (by decide)
  have h6 : kvIsspace c = false := by
    simp only [plainChar, Bool.not_eq_true'] at hp
    simp only [Bool.or_eq_false_iff] at hp
    exact hp.1.1.1.1
  unfold handleChar
  rw [if_neg h1, if_neg (fun h => h2 h.1)]
  simp [hcom, h3, h4, h5, h6, hq, Nat.not_le.mpr hlen]

/-- Branch lemma: inside a quote, any character other than `"` and newline
is appended to the buffer (whitespace and braces included). -/
theorem handleChar_quoted (pc nc : Option Char) (st : ScanState) (c : Char)
    (hqc : quotedChar c = true) (hq : st.inquote = true) (hcom : st.incomment = false)
    (hlen : st.buf.length < 512) :
    handleChar pc nc st c = .ok { st with buf := st.buf ++ [c] } false := by
  have h1 : c ≠ '\n' := by intro h; subst h; exact absurd hqc (by decide)
  have h3 : c ≠ '"' := by intro h; subst h; exact absurd hqc (by decide)
  unfold handleChar
  rw [if_neg h1, if_neg (fun h => by simp [hq] at h)]
  simp [hcom, h3, hq, Nat.not_le.mpr hlen]

/-- Branch lemma: whitespace (other than newline) outside quotes with an
empty buffer commits nothing and starts the whitespace-skip loop. -/
theorem handleChar_ws_empty (pc nc : Option Char) (st : ScanState) (c : Char)
    (hws : kvIsspace c = true) (hn : c ≠ '\n') (hq : st.inquote = false)
    (hcom : st.incomment = false) (hbuf : st.buf = []) :
    handleChar pc nc st c = .ok st true := by
  have h2 : c ≠ '/' := by intro h; subst h; exact absurd hws (by decide)
  have h3 : c ≠ '"' := by
    intro h; subst h; exact absurd hws (by decide)
  have h4 : c ≠ '{' := by intro h; subst h; exact absurd hws (by decide)
  have h5 : c ≠ '}' := by intro h; subst h; exact absurd hws (by decide)
  unfold handleChar
  rw [if_neg hn, if_neg (fun h => h2 h.1)]
  simp [hcom, h3, h4, h5, hq, hws, hbuf]

/-- Branch lemma: whitespace (other than newline) outside quotes with a
nonempty buffer commits the buffered token (quoted flag set false) and
starts the whitespace-skip loop. -/
theorem handleChar_ws_commit (pc nc : Option Char) (st : ScanState) (c : Char)
    (hws : kvIsspace c = true) (hn : c ≠ '\n') (hq : st.inquote = false)
    (hcom : st.incomment = false) (hbuf : st.buf ≠ []) (hlen : st.buf.length < 512) :
    handleChar pc nc st c = .ok (commitTok st (some false)) true := by
  have h2 : c ≠ '/' := by intro h; subst h; exact absurd hws (by decide)
  have h3 : c ≠ '"' := by intro h; subst h; exact absurd hws (by decide)
  have h4 : c ≠ '{' := by intro h; subst h; exact absurd hws (by decide)
  have h5 : c ≠ '}' := by intro h; subst h; exact absurd hws (by decide)
  unfold handleChar
  rw [if_neg hn, if_neg (fun h => h2 h.1)]
  simp [hcom, h3, h4, h5, hq, hws, hbuf, Nat.not_le.mpr hlen]

/-- Branch lemma: a newline outside quotes with an empty buffer only clears
the comment/quote flags. -/
theorem handleChar_nl_empty (pc nc : Option Char) (st : ScanState)
    (hq : st.inquote = false) (hbuf : st.buf = []) :
    handleChar pc nc st '\n' = .ok { st with incomment := false, inquote := false } false := by
  unfold handleChar
  simp [hq, hbuf]

/-- Branch lemma: a newline outside quotes with a nonempty buffer commits
the buffered token (quoted flag untouched) and clears the line state. -/
theorem handleChar_nl_commit (pc nc : Option Char) (st : ScanState)
    (hq : st.inquote = false) (hbuf : st.buf ≠ []) (hlen : st.buf.length < 512) :
    handleChar pc nc st '\n'
      = .ok { commitTok st none with incomment := false, inquote := false } false := by
  unfold handleChar
  simp [hq, hbuf, Nat.not_le.mpr hlen]

/-- Branch lemma: a quote character outside a quote and comment opens a
quote. -/
theorem handleChar_quote_open (pc nc : Option Char) (st : ScanState)
    (hq : st.inquote = false) (hcom : st.incomment = false) :
    handleChar pc nc st '"' = .ok { st with inquote := true } false := by
  unfold handleChar
  simp [hq, hcom]

/-- Branch lemma: the closing quote commits the buffered token with its
quoted flag set. -/
theorem handleChar_quote_close (pc nc : Option Char) (st : ScanState)
    (hq : st.inquote = true) (hcom : st.incomment = false) (hlen : st.buf.length < 512) :
    handleChar pc nc st '"' = .ok { commitTok st (some true) with inquote := false } false := by
  unfold handleChar
  rw [if_neg (by decide), if_neg (fun h => by simp [hq] at h)]
  simp [hcom, hq, Nat.not_le.mpr hlen]

/-- Branch lemma: `{` with a pending key opens a child section named by the
key, carrying the current `CurrentKey.quoted` flag. -/
theorem handleChar_open_brace (pc nc : Option Char) (st : ScanState) (n : Str)
    (hq : st.inquote = false) (hcom : st.incomment = false) (hpk : st.parsed_key = true)
    (hck : st.curKey = some n) (hstk : st.stack.length < 512) :
    handleChar pc nc st '{'
      = .ok { st with
          stack := { KeyValues.mkNamed n with quoted := st.curQuoted } :: st.stack,
          curKey := none, parsed_key := false,
          bracket_level := st.bracket_level + 1 } false := by
  unfold handleChar
  rw [if_neg (by decide), if_neg (fun h => by simp at h)]
  simp [hcom, hq, hpk, hck, Nat.not_le.mpr hstk]

/-- Branch lemma: `}` with at least one open section above the root pops it
onto its parent. -/
theorem handleChar_close_brace (pc nc : Option Char) (st : ScanState)
    (cur parent : KeyValues) (rest : List KeyValues)
    (hq : st.inquote = false) (hcom : st.incomment = false)
    (hstk : st.stack = cur :: parent :: rest) :
    handleChar pc nc st '}'
      = .ok { st with
          stack := { parent with child_sections := parent.child_sections ++ [cur] } :: rest,
          bracket_level := st.bracket_level - 1 } false := by
  unfold handleChar
  rw [if_neg (by decide), if_neg (fun h => by simp at h)]
  simp [hcom, hq, hstk]


/-- Scanning a run of plain token characters appends it to the buffer. -/
theorem scan_buffer_plain (cs : Str) :
    ∀ (pc snc pc2 snc2 : Option Char) (st : ScanState) (rest : Str),
    cs.all plainChar = true → st.inquote = false → st.incomment = false →
    st.buf.length + cs.length ≤ 511 → noSlashHead rest = true →
    scanGo pc snc false st (cs ++ rest)
      = scanGo pc2 snc2 false { st with buf := st.buf ++ cs } rest := by
  induction cs with
  | nil =>
    intro pc snc pc2 snc2 st rest _ _ _ _ hsl
    rw [List.nil_append, List.append_nil]
    exact scanGo_retarget pc snc pc2 snc2 st rest (Or.inl hsl)
  | cons c cs ih =>
    intro pc snc pc2 snc2 st rest hall hq hcom hlen hsl
    have hc : plainChar c = true := by
      simp only [List.all_cons, Bool.and_eq_true] at hall; exact hall.1
    have hcs : cs.all plainChar = true := by
      simp only [List.all_cons, Bool.and_eq_true] at hall; exact hall.2
    have hlc : st.buf.length < 512 := by
      simp only [List.length_cons] at hlen; omega
    rw [List.cons_append,
      scanGo_cons_step pc snc false st c (cs ++ rest) _ _ (Or.inl rfl)
        (handleChar_plain _ _ st c hc hq hcom hlc)]
    have happ : List.length ({ st with buf := st.buf ++ [c] } : ScanState).buf
        + cs.length ≤ 511 := by
      simp only [List.length_append, List.length_cons, List.length_nil]
      simp only [List.length_cons] at hlen
      omega
    rw [ih (some c) _ pc2 snc2 { st with buf := st.buf ++ [c] } rest hcs hq hcom happ hsl]
    simp [List.append_assoc]

/-- Scanning a run of quoted-token characters inside a quote appends it to
the buffer (no comment or whitespace handling can fire inside a quote). -/
theorem scan_buffer_quoted (cs : Str) :
    ∀ (pc snc pc2 snc2 : Option Char) (st : ScanState) (rest : Str),
    cs.all quotedChar = true → st.inquote = true → st.incomment = false →
    st.buf.length + cs.length ≤ 511 →
    scanGo pc snc false st (cs ++ rest)
      = scanGo pc2 snc2 false { st with buf := st.buf ++ cs } rest := by
  induction cs with
  | nil =>
    intro pc snc pc2 snc2 st rest _ hq _ _
    rw [List.nil_append, List.append_nil]
    exact scanGo_retarget pc snc pc2 snc2 st rest (Or.inr hq)
  | cons c cs ih =>
    intro pc snc pc2 snc2 st rest hall hq hcom hlen
    have hc : quotedChar c = true := by
      simp only [List.all_cons, Bool.and_eq_true] at hall; exact hall.1
    have hcs : cs.all quotedChar = true := by
      simp only [List.all_cons, Bool.and_eq_true] at hall; exact hall.2
    have hlc : st.buf.length < 512 := by
      simp only [List.length_cons] at hlen; omega
    rw [List.cons_append,
      scanGo_cons_step pc snc false st c (cs ++ rest) _ _ (Or.inl rfl)
        (handleChar_quoted _ _ st c hc hq hcom hlc)]
    have happ : List.length ({ st with buf := st.buf ++ [c] } : ScanState).buf
        + cs.length ≤ 511 := by
      simp only [List.length_append, List.length_cons, List.length_nil]
      simp only [List.length_cons] at hlen
      omega
    rw [ih (some c) _ pc2 snc2 { st with buf := st.buf ++ [c] } rest hcs hq hcom happ]
    simp [List.append_assoc]

/-- Scanning an indentation run of tabs from a between-tokens state is a
no-op provided what follows starts with a non-whitespace, non-`/`
character (or nothing). -/
theorem scan_tabs (m : Nat) :
    ∀ (pc snc pc2 snc2 : Option Char) (b : Bool) (st : ScanState) (rest : Str),
    st.inquote = false → st.incomment = false → st.buf = [] →
    noSlashHead rest = true → (∀ y, rest.head? = some y → kvIsspace y = false) →
    scanGo pc snc b st (tabs m ++ rest) = scanGo pc2 snc2 false st rest := by
  induction m with
  | zero =>
    intro pc snc pc2 snc2 b st rest _ _ _ hsl hws
    exact scanGo_retarget_skip pc snc pc2 snc2 b st rest (Or.inl hsl) (Or.inr hws)
  | succ m ih =>
    intro pc snc pc2 snc2 b st rest hq hcom hbuf hsl hws
    have htail : tabs (m + 1) ++ rest = '\t' :: (tabs m ++ rest) := by
      simp [tabs, List.replicate_succ]
    rw [htail]
    cases b with
    | true =>
      rw [scanGo]
      simp only [show ((true = true ∧ kvIsspace '\t' = true)) from ⟨rfl, rfl⟩, if_pos]
      exact ih (some '\t') snc pc2 snc2 true st rest hq hcom hbuf hsl hws
    | false =>
      rw [scanGo_cons_step pc snc false st '\t' (tabs m ++ rest) _ _ (Or.inl rfl)
        (handleChar_ws_empty _ _ st '\t' rfl (by decide) hq hcom hbuf)]
      exact ih (some '\t') _ pc2 snc2 true st rest hq hcom hbuf hsl hws

/-- One scan step between canonical (`none`, `none`, flag-down) scan calls:
the per-character handler is evaluated and the raised skip flag, if any, is
discharged against a non-whitespace continuation. -/
theorem scan_step (c : Char) (st st1 : ScanState) (sk : Bool) (rest : Str)
    (h : ∀ pc nc, handleChar pc nc st c = .ok st1 sk)
    (hsl : noSlashHead rest = true ∨ st1.inquote = true)
    (hsk : sk = false ∨ ∀ y, rest.head? = some y → kvIsspace y = false) :
    scanGo none none false st (c :: rest) = scanGo none none false st1 rest := by
  rw [scanGo]
  simp only [Bool.false_eq_true, false_and, if_false, h]
  exact scanGo_retarget_skip (some c) _ none none sk st1 rest hsl hsk

theorem plainChar_ne_slash {c : Char} (h : plainChar c = true) : c ≠ '/' := by
  intro he; subst he; exact absurd h (by decide)

theorem plainChar_not_ws {c : Char} (h : plainChar c = true) : kvIsspace c = false := by
  simp only [plainChar, Bool.not_eq_true', Bool.or_eq_false_iff] at h
  exact h.1.1.1.1

theorem head_not_ws (c : Char) (t : Str) (h : kvIsspace c = false) :
    ∀ y, (c :: t).head? = some y → kvIsspace y = false := by
  intro y hy
  simp only [List.head?_cons, Option.some.injEq] at hy
  rw [← hy]; exact h

/-- Scanning one dumped entry line from a between-tokens state appends the
entry — same key and value, fresh cache, `quoted` flag true — to the
innermost open section, and leaves `CurrentKey.quoted` true. -/
theorem scan_entry (m : Nat) (k : Key) (hk : wfKey k = true)
    (pc snc pc2 snc2 : Option Char) (cur : KeyValues) (stk : List KeyValues)
    (q : Bool) (bl : Int) (rest : Str) (hsl : noSlashHead rest = true) :
    scanGo pc snc false (cleanSt (cur :: stk) q bl) (dumpKey (tabs m) k ++ rest)
      = scanGo pc2 snc2 false
          (cleanSt ({ cur with keys := cur.keys ++ [reparsedKey k] } :: stk) true bl) rest := by
  rcases k with ⟨ko, vo, kc, kq⟩
  cases ko with
  | none => simp [wfKey] at hk
  | some kk =>
  cases vo with
  | none => simp [wfKey] at hk
  | some vv =>
  simp only [wfKey, wfTok, Bool.and_eq_true, decide_eq_true_eq] at hk
  obtain ⟨⟨⟨hkl, hkk⟩, hvl⟩, hvv⟩ := hk
  have hvl512 : vv.length < 512 := Nat.lt_of_le_of_lt hvl (by decide)
  have hkl512 : kk.length < 512 := Nat.lt_of_le_of_lt hkl (by decide)
  cases kq with
  | false =>
    rw [if_neg (by decide)] at hkk
    simp only [Bool.and_eq_true, Bool.not_eq_true'] at hkk
    obtain ⟨hne0, hplain⟩ := hkk
    have hne : kk ≠ [] := by
      intro h; subst h; simp at hne0
    obtain ⟨c0, kk1, hkkc⟩ : ∃ c0 kk1, kk = c0 :: kk1 := by
      cases kk with
      | nil => exact absurd rfl hne
      | cons a t => exact ⟨a, t, rfl⟩
    have hc0 : plainChar c0 = true := by
      rw [hkkc] at hplain
      simp only [List.all_cons, Bool.and_eq_true] at hplain
      exact hplain.1
    have hdk : dumpKey (tabs m) ⟨some kk, some vv, kc, false⟩ ++ rest
        = tabs m ++ (kk ++ (' ' :: '"' :: (vv ++ ('"' :: '\n' :: rest)))) := by
      simp [dumpKey, List.append_assoc]
    rw [hdk]
    have hslk : noSlashHead (kk ++ (' ' :: '"' :: (vv ++ ('"' :: '\n' :: rest)))) = true := by
      rw [hkkc]
      simpa [noSlashHead] using plainChar_ne_slash hc0
    have hwsk : ∀ y, (kk ++ (' ' :: '"' :: (vv ++ ('"' :: '\n' :: rest)))).head? = some y →
        kvIsspace y = false := by
      rw [hkkc]
      exact head_not_ws c0 _ (plainChar_not_ws hc0)
    refine (scan_tabs m pc snc none none false _ _ rfl rfl rfl hslk hwsk).trans ?_
    refine (scan_buffer_plain kk none none none none (cleanSt (cur :: stk) q bl) _
      hplain rfl rfl (by simpa [cleanSt] using hkl) (by rfl)).trans ?_
    show scanGo none none false ⟨cur :: stk, none, q, false, false, false, kk, bl⟩
        (' ' :: '"' :: (vv ++ ('"' :: '\n' :: rest))) = _
    refine (scan_step ' ' _ ⟨cur :: stk, some kk, false, true, false, false, [], bl⟩ true _
      (fun pc' nc' => handleChar_ws_commit pc' nc'
        ⟨cur :: stk, none, q, false, false, false, kk, bl⟩ ' ' rfl (by decide) rfl rfl hne
        hkl512)
      (Or.inl (by rfl)) (Or.inr (head_not_ws '"' _ rfl))).trans ?_
    refine (scan_step '"' ⟨cur :: stk, some kk, false, true, false, false, [], bl⟩
      ⟨cur :: stk, some kk, false, true, true, false, [], bl⟩ false _
      (fun pc' nc' => handleChar_quote_open pc' nc'
        ⟨cur :: stk, some kk, false, true, false, false, [], bl⟩ rfl rfl)
      (Or.inr rfl) (Or.inl (by rfl))).trans ?_
    refine (scan_buffer_quoted vv none none none none
      ⟨cur :: stk, some kk, false, true, true, false, [], bl⟩ _ hvv rfl rfl
      (by simpa using hvl)).trans ?_
    show scanGo none none false ⟨cur :: stk, some kk, false, true, true, false, vv, bl⟩
        ('"' :: '\n' :: rest) = _
    refine (scan_step '"' ⟨cur :: stk, some kk, false, true, true, false, vv, bl⟩
      ⟨{ cur with keys := cur.keys ++ [⟨some kk, some vv, .NONE, true⟩] } :: stk,
        none, true, false, false, false, [], bl⟩ false _
      (fun pc' nc' => handleChar_quote_close pc' nc'
        ⟨cur :: stk, some kk, false, true, true, false, vv, bl⟩ rfl rfl hvl512)
      (Or.inl (by rfl)) (Or.inl rfl)).trans ?_
    refine (scan_step '\n'
      ⟨{ cur with keys := cur.keys ++ [⟨some kk, some vv, .NONE, true⟩] } :: stk,
        none, true, false, false, false, [], bl⟩
      ⟨{ cur with keys := cur.keys ++ [⟨some kk, some vv, .NONE, true⟩] } :: stk,
        none, true, false, false, false, [], bl⟩ false _
      (fun pc' nc' => handleChar_nl_empty pc' nc'
        ⟨{ cur with keys := cur.keys ++ [⟨some kk, some vv, .NONE, true⟩] } :: stk,
          none, true, false, false, false, [], bl⟩ rfl rfl)
      (Or.inl hsl) (Or.inl rfl)).trans ?_
    exact scanGo_retarget none none pc2 snc2 _ rest (Or.inl hsl)
  | true =>
    rw [if_pos rfl] at hkk
    have hdk : dumpKey (tabs m) ⟨some kk, some vv, kc, true⟩ ++ rest
        = tabs m ++ ('"' :: (kk ++ ('"' :: ' ' :: '"' :: (vv ++ ('"' :: '\n' :: rest))))) := by
      simp [dumpKey, List.append_assoc]
    rw [hdk]
    refine (scan_tabs m pc snc none none false _ _ rfl rfl rfl (by rfl)
      (head_not_ws '"' _ rfl)).trans ?_
    refine (scan_step '"' (cleanSt (cur :: stk) q bl)
      ⟨cur :: stk, none, q, false, true, false, [], bl⟩ false _
      (fun pc' nc' => handleChar_quote_open pc' nc' (cleanSt (cur :: stk) q bl) rfl rfl)
      (Or.inr rfl) (Or.inl (by rfl))).trans ?_
    refine (scan_buffer_quoted kk none none none none
      ⟨cur :: stk, none, q, false, true, false, [], bl⟩ _ hkk rfl rfl
      (by simpa using hkl)).trans ?_
    show scanGo none none false ⟨cur :: stk, none, q, false, true, false, kk, bl⟩
        ('"' :: ' ' :: '"' :: (vv ++ ('"' :: '\n' :: rest))) = _
    refine (scan_step '"' ⟨cur :: stk, none, q, false, true, false, kk, bl⟩
      ⟨cur :: stk, some kk, true, true, false, false, [], bl⟩ false _
      (fun pc' nc' => handleChar_quote_close pc' nc'
        ⟨cur :: stk, none, q, false, true, false, kk, bl⟩ rfl rfl hkl512)
      (Or.inl (by rfl)) (Or.inl rfl)).trans ?_
    refine (scan_step ' ' ⟨cur :: stk, some kk, true, true, false, false, [], bl⟩
      ⟨cur :: stk, some kk, true, true, false, false, [], bl⟩ true _
      (fun pc' nc' => handleChar_ws_empty pc' nc'
        ⟨cur :: stk, some kk, true, true, false, false, [], bl⟩ ' ' rfl (by decide) rfl rfl rfl)
      (Or.inl (by rfl)) (Or.inr (head_not_ws '"' _ rfl))).trans ?_
    refine (scan_step '"' ⟨cur :: stk, some kk, true, true, false, false, [], bl⟩
      ⟨cur :: stk, some kk, true, true, true, false, [], bl⟩ false _
      (fun pc' nc' => handleChar_quote_open pc' nc'
        ⟨cur :: stk, some kk, true, true, false, false, [], bl⟩ rfl rfl)
      (Or.inr rfl) (Or.inl (by rfl))).trans ?_
    refine (scan_buffer_quoted vv none none none none
      ⟨cur :: stk, some kk, true, true, true, false, [], bl⟩ _ hvv rfl rfl
      (by simpa using hvl)).trans ?_
    show scanGo none none false ⟨cur :: stk, some kk, true, true, true, false, vv, bl⟩
        ('"' :: '\n' :: rest) = _
    refine (scan_step '"' ⟨cur :: stk, some kk, true, true, true, false, vv, bl⟩
      ⟨{ cur with keys := cur.keys ++ [⟨some kk, some vv, .NONE, true⟩] } :: stk,
        none, true, false, false, false, [], bl⟩ false _
      (fun pc' nc' => handleChar_quote_close pc' nc'
        ⟨cur :: stk, some kk, true, true, true, false, vv, bl⟩ rfl rfl hvl512)
      (Or.inl (by rfl)) (Or.inl rfl)).trans ?_
    refine (scan_step '\n'
      ⟨{ cur with keys := cur.keys ++ [⟨some kk, some vv, .NONE, true⟩] } :: stk,
        none, true, false, false, false, [], bl⟩
      ⟨{ cur with keys := cur.keys ++ [⟨some kk, some vv, .NONE, true⟩] } :: stk,
        none, true, false, false, false, [], bl⟩ false _
      (fun pc' nc' => handleChar_nl_empty pc' nc'
        ⟨{ cur with keys := cur.keys ++ [⟨some kk, some vv, .NONE, true⟩] } :: stk,
          none, true, false, false, false, [], bl⟩ rfl rfl)
      (Or.inl hsl) (Or.inl rfl)).trans ?_
    exact scanGo_retarget none none pc2 snc2 _ rest (Or.inl hsl)

theorem entrySig_reparsed (ks : List Key) :
    (ks.map reparsedKey).map entrySig = ks.map entrySig := by
  rw [List.map_map]
  rfl

/-- An entry line starts with a tab, a quote, or the first (plain) character
of its key — never with `/`. -/
theorem noSlashHead_dumpKey (m : Nat) (k : Key) (hk : wfKey k = true) (X : Str) :
    noSlashHead (dumpKey (tabs m) k ++ X) = true := by
  rcases k with ⟨ko, vo, kc, kq⟩
  cases ko with
  | none => simp [wfKey] at hk
  | some kk =>
  cases vo with
  | none => simp [wfKey] at hk
  | some vv =>
  cases m with
  | succ m => simp [dumpKey, tabs, List.replicate_succ, noSlashHead]
  | zero =>
    cases kq with
    | true => simp [dumpKey, tabs, noSlashHead]
    | false =>
      simp only [wfKey, wfTok, Bool.and_eq_true, decide_eq_true_eq] at hk
      obtain ⟨⟨⟨_, hkk⟩, _⟩, _⟩ := hk
      rw [if_neg (by decide)] at hkk
      simp only [Bool.and_eq_true, Bool.not_eq_true'] at hkk
      obtain ⟨hne0, hplain⟩ := hkk
      cases kk with
      | nil => simp at hne0
      | cons c0 kk1 =>
        have hc0 : plainChar c0 = true := by
          simp only [List.all_cons, Bool.and_eq_true] at hplain
          exact hplain.1
        simpa [dumpKey, tabs, noSlashHead] using plainChar_ne_slash hc0

/-- A run of dumped entry lines starts harmlessly as well. -/
theorem noSlashHead_entries (m : Nat) (ks : List Key) (hks : ks.all wfKey = true) (X : Str)
    (hX : noSlashHead X = true) :
    noSlashHead ((ks.map (dumpKey (tabs m))).flatten ++ X) = true := by
  cases ks with
  | nil => simpa using hX
  | cons k t =>
    have hk : wfKey k = true := by
      simp only [List.all_cons, Bool.and_eq_true] at hks; exact hks.1
    simpa [List.append_assoc] using noSlashHead_dumpKey m k hk _

/-- Scanning the dumped entry lines of a section appends the corresponding
entries, in order, to the innermost open section. -/
theorem scan_entries (ks : List Key) :
    ∀ (m : Nat) (pc snc pc2 snc2 : Option Char) (cur : KeyValues) (stk : List KeyValues)
      (q : Bool) (bl : Int) (rest : Str),
    ks.all wfKey = true → noSlashHead rest = true →
    ∃ q2, scanGo pc snc false (cleanSt (cur :: stk) q bl)
        ((ks.map (dumpKey (tabs m))).flatten ++ rest)
      = scanGo pc2 snc2 false
          (cleanSt ({ cur with keys := cur.keys ++ ks.map reparsedKey } :: stk) q2 bl) rest := by
  induction ks with
  | nil =>
    intro m pc snc pc2 snc2 cur stk q bl rest _ hsl
    refine ⟨q, ?_⟩
    have hcur : ({ cur with keys := cur.keys ++ ([] : List Key).map reparsedKey } : KeyValues)
        = cur := by
      cases cur; simp
    rw [hcur]
    simpa using scanGo_retarget pc snc pc2 snc2 (cleanSt (cur :: stk) q bl) rest (Or.inl hsl)
  | cons k t ih =>
    intro m pc snc pc2 snc2 cur stk q bl rest hks hsl
    have hk : wfKey k = true := by
      simp only [List.all_cons, Bool.and_eq_true] at hks; exact hks.1
    have hts : t.all wfKey = true := by
      simp only [List.all_cons, Bool.and_eq_true] at hks; exact hks.2
    have htext : ((k :: t).map (dumpKey (tabs m))).flatten ++ rest
        = dumpKey (tabs m) k ++ ((t.map (dumpKey (tabs m))).flatten ++ rest) := by
      simp [List.append_assoc]
    rw [htext,
      scan_entry m k hk pc snc none none cur stk q bl _
        (noSlashHead_entries m t hts rest hsl)]
    obtain ⟨q2, hq2⟩ := ih m none none pc2 snc2
      { cur with keys := cur.keys ++ [reparsedKey k] } stk true bl rest hts hsl
    refine ⟨q2, ?_⟩
    rw [hq2]
    simp [List.append_assoc]

theorem noSlashHead_tabs_cons (i : Nat) (x : Char) (X : Str) (hx : x ≠ '/') :
    noSlashHead (tabs i ++ (x :: X)) = true := by
  cases i with
  | zero => simpa [tabs, noSlashHead] using hx
  | succ i => simp [tabs, List.replicate_succ, noSlashHead]

/-- A dumped section starts with a tab, a quote, or the first (plain)
character of its name — never with `/`. -/
theorem noSlashHead_dumpSection (s : KeyValues) (ff b indent : Nat)
    (hs : wfSection ff s = true) (hb : 1 ≤ b) (hi : indent ≤ MAX_INDENT_LEVEL) (X : Str) :
    noSlashHead (dumpKVAux b s indent ++ X) = true := by
  cases ff with
  | zero => simp [wfSection] at hs
  | succ ff =>
  rcases s with ⟨sname, ks, cs, sg, sq⟩
  cases sname with
  | none => simp [wfSection] at hs
  | some n =>
  cases b with
  | zero => omega
  | succ b =>
  have hguard : ¬(indent > MAX_INDENT_LEVEL) := by omega
  simp only [wfSection, wfTok, Bool.and_eq_true, decide_eq_true_eq] at hs
  obtain ⟨⟨⟨_, hn⟩, _⟩, _⟩ := hs
  cases indent with
  | succ i => simp [dumpKVAux, hguard, tabs, List.replicate_succ, noSlashHead]
  | zero =>
    cases sq with
    | true => simp [dumpKVAux, hguard, tabs, noSlashHead]
    | false =>
      rw [if_neg (by decide)] at hn
      simp only [Bool.and_eq_true, Bool.not_eq_true'] at hn
      obtain ⟨hne0, hplain⟩ := hn
      cases n with
      | nil => simp at hne0
      | cons c0 n1 =>
        have hc0 : plainChar c0 = true := by
          simp only [List.all_cons, Bool.and_eq_true] at hplain
          exact hplain.1
        simpa [dumpKVAux, hguard, tabs, noSlashHead] using plainChar_ne_slash hc0

/-- The concatenated dumps of a list of sections start harmlessly. -/
theorem noSlashHead_children (l : List KeyValues) (ff b indent : Nat)
    (hl : ∀ c ∈ l, wfSection ff c = true) (hb : 1 ≤ b ∨ l = [])
    (hi : l = [] ∨ indent ≤ MAX_INDENT_LEVEL) (X : Str) (hX : noSlashHead X = true) :
    noSlashHead ((l.map (fun c => dumpKVAux b c indent)).flatten ++ X) = true := by
  cases l with
  | nil => simpa using hX
  | cons c t =>
    rcases hb with hb | hb
    · rcases hi with hi | hi
      · exact absurd hi (by simp)
      · simpa [List.append_assoc] using
          noSlashHead_dumpSection c ff b indent (hl c (by simp)) hb hi _
    · exact absurd hb (by simp)

theorem scanSectionP_zero : ScanSectionP 0 := by
  intro s hs
  simp [wfSection] at hs

/-- The children case at fuel `f` follows from the section case at fuel `f`
by induction along the child list. -/
theorem scan_children_step (f : Nat) (P1 : ScanSectionP f) : ScanChildrenP f := by
  intro l
  induction l with
  | nil =>
    intro _ b indent _ _ cur stk _ q bl rest hsl pc snc pc2 snc2
    refine ⟨[], q, ?_, fun g _ => rfl⟩
    have hcur : ({ cur with child_sections := cur.child_sections ++ [] } : KeyValues)
        = cur := by
      cases cur; simp
    rw [hcur]
    simpa using scanGo_retarget pc snc pc2 snc2 (cleanSt (cur :: stk) q bl) rest (Or.inl hsl)
  | cons c t ih =>
    intro hl b indent hfb hind cur stk hstk q bl rest hsl pc snc pc2 snc2
    have hfz : 1 ≤ f := by
      cases f with
      | zero => exact absurd (hl c (by simp)) (by simp [wfSection])
      | succ f => omega
    have htext : (((c :: t).map (fun c => dumpKVAux b c indent)).flatten ++ rest)
        = dumpKVAux b c indent ++ ((t.map (fun c => dumpKVAux b c indent)).flatten ++ rest) := by
      simp [List.append_assoc]
    rw [htext]
    obtain ⟨child, q2, heq, hnorm⟩ := P1 c (hl c (by simp)) b indent hfb hind cur stk hstk
      q bl ((t.map (fun c => dumpKVAux b c indent)).flatten ++ rest)
      (noSlashHead_children t f b indent (fun x hx => hl x (by simp [hx])) (Or.inl (by omega))
        (Or.inr (by simp only [MAX_INDENT_LEVEL]; omega)) rest hsl)
      pc snc none none
    rw [heq]
    obtain ⟨childs, q3, heq2, hnorm2⟩ := ih (fun x hx => hl x (by simp [hx])) b indent hfb hind
      { cur with child_sections := cur.child_sections ++ [child] } stk (by simpa using hstk)
      q2 bl rest hsl none none pc2 snc2
    refine ⟨child :: childs, q3, ?_, ?_⟩
    · rw [heq2]
      simp [List.append_assoc]
    · intro g hg
      simp only [List.map_cons]
      rw [hnorm g hg, hnorm2 g hg]

/-- The section case at fuel `f + 1` follows from the children case at fuel
`f`: scan the name line, the brace line, the entries, the children, and the
closing brace line. -/
theorem scan_section_step (f : Nat) (ihQ : ScanChildrenP f) : ScanSectionP (f + 1) := by
  intro s hs b indent hfb hind cur stk hstk q bl rest hsl pc snc pc2 snc2
  rcases s with ⟨sname, ks, cs, sg, sq⟩
  cases sname with
  | none => simp [wfSection] at hs
  | some n =>
  cases b with
  | zero => omega
  | succ b =>
  have hfb' : f ≤ b := by omega
  simp only [wfSection, wfTok, Bool.and_eq_true, decide_eq_true_eq] at hs
  obtain ⟨⟨⟨hnl, hn⟩, hks⟩, hcs⟩ := hs
  rw [List.all_eq_true] at hcs
  have hcs' : ∀ c ∈ cs, wfSection f c = true := by
    intro c hc; simpa using hcs c hc
  have hguard : ¬(indent > MAX_INDENT_LEVEL) := by
    simp only [MAX_INDENT_LEVEL]; omega
  have hnl512 : n.length < 512 := Nat.lt_of_le_of_lt hnl (by decide)
  have hLlt : (cur :: stk).length < 512 := by
    simp only [List.length_cons] at hstk ⊢; omega
  have hcsb : 1 ≤ b ∨ cs = [] := by
    cases f with
    | zero =>
      right
      cases cs with
      | nil => rfl
      | cons c t => exact absurd (hcs' c (by simp)) (by simp [wfSection])
    | succ f => left; omega
  have hslC : noSlashHead ((cs.map (fun c => dumpKVAux b c (indent + 1))).flatten
      ++ (tabs indent ++ ('}' :: '\n' :: rest))) = true :=
    noSlashHead_children cs f b (indent + 1) hcs' hcsb
      (by
        cases f with
        | zero =>
          left
          cases cs with
          | nil => rfl
          | cons c t => exact absurd (hcs' c (by simp)) (by simp [wfSection])
        | succ f => right; simp only [MAX_INDENT_LEVEL]; omega) _
      (noSlashHead_tabs_cons indent '}' _ (by decide))
  have hslE : noSlashHead ((ks.map (dumpKey (tabs (indent + 1)))).flatten
      ++ ((cs.map (fun c => dumpKVAux b c (indent + 1))).flatten
        ++ (tabs indent ++ ('}' :: '\n' :: rest)))) = true :=
    noSlashHead_entries (indent + 1) ks hks _ hslC
  cases sq with
  | false =>
    rw [if_neg (by decide)] at hn
    simp only [Bool.and_eq_true, Bool.not_eq_true'] at hn
    obtain ⟨hne0, hplain⟩ := hn
    have hne : n ≠ [] := by intro h; subst h; simp at hne0
    obtain ⟨c0, n1, hnc⟩ : ∃ c0 n1, n = c0 :: n1 := by
      cases n with
      | nil => exact absurd rfl hne
      | cons a t => exact ⟨a, t, rfl⟩
    have hc0 : plainChar c0 = true := by
      rw [hnc] at hplain
      simp only [List.all_cons, Bool.and_eq_true] at hplain
      exact hplain.1
    have hdk : dumpKVAux (b + 1) ⟨some n, ks, cs, sg, false⟩ indent ++ rest
        = tabs indent ++ (n ++ ('\n' :: (tabs indent ++ ('{' :: '\n' ::
            ((ks.map (dumpKey (tabs (indent + 1)))).flatten
              ++ ((cs.map (fun c => dumpKVAux b c (indent + 1))).flatten
                ++ (tabs indent ++ ('}' :: '\n' :: rest)))))))) := by
      simp [dumpKVAux, hguard, List.append_assoc]
    obtain ⟨q2, eqE⟩ := scan_entries ks (indent + 1) none none none none
      ⟨some n, [], [], true, q⟩ (cur :: stk) q (bl + 1)
      ((cs.map (fun c => dumpKVAux b c (indent + 1))).flatten
        ++ (tabs indent ++ ('}' :: '\n' :: rest))) hks hslC
    obtain ⟨childs, q3, eqC, hnormC⟩ := ihQ cs hcs' b (indent + 1) hfb' (by omega)
      ⟨some n, ks.map reparsedKey, [], true, q⟩ (cur :: stk)
      (by simp only [List.length_cons] at hstk ⊢; omega) q2 (bl + 1)
      (tabs indent ++ ('}' :: '\n' :: rest))
      (noSlashHead_tabs_cons indent '}' _ (by decide)) none none none none
    refine ⟨⟨some n, ks.map reparsedKey, childs, true, q⟩, q3, ?_, ?_⟩
    · rw [hdk]
      refine (scan_tabs indent pc snc none none false _ _ rfl rfl rfl
        (by rw [hnc]; simpa [noSlashHead] using plainChar_ne_slash hc0)
        (by rw [hnc]; exact head_not_ws c0 _ (plainChar_not_ws hc0))).trans ?_
      refine (scan_buffer_plain n none none none none (cleanSt (cur :: stk) q bl) _
        hplain rfl rfl (by simpa [cleanSt] using hnl) (by rfl)).trans ?_
      show scanGo none none false ⟨cur :: stk, none, q, false, false, false, n, bl⟩
          ('\n' :: (tabs indent ++ ('{' :: '\n' :: _))) = _
      refine (scan_step '\n' ⟨cur :: stk, none, q, false, false, false, n, bl⟩
        ⟨cur :: stk, some n, q, true, false, false, [], bl⟩ false _
        (fun pc' nc' => handleChar_nl_commit pc' nc'
          ⟨cur :: stk, none, q, false, false, false, n, bl⟩ rfl hne hnl512)
        (Or.inl (noSlashHead_tabs_cons indent '{' _ (by decide))) (Or.inl rfl)).trans ?_
      refine (scan_tabs indent none none none none false _ _ rfl rfl rfl (by rfl)
        (head_not_ws '{' _ rfl)).trans ?_
      refine (scan_step '{' ⟨cur :: stk, some n, q, true, false, false, [], bl⟩
        (cleanSt (⟨some n, [], [], true, q⟩ :: cur :: stk) q (bl + 1)) false _
        (fun pc' nc' => handleChar_open_brace pc' nc'
          ⟨cur :: stk, some n, q, true, false, false, [], bl⟩ n rfl rfl rfl rfl hLlt)
        (Or.inl (by rfl)) (Or.inl rfl)).trans ?_
      refine (scan_step '\n' (cleanSt (⟨some n, [], [], true, q⟩ :: cur :: stk) q (bl + 1))
        (cleanSt (⟨some n, [], [], true, q⟩ :: cur :: stk) q (bl + 1)) false _
        (fun pc' nc' => handleChar_nl_empty pc' nc'
          (cleanSt (⟨some n, [], [], true, q⟩ :: cur :: stk) q (bl + 1)) rfl rfl)
        (Or.inl hslE) (Or.inl rfl)).trans ?_
      rw [eqE]
      show scanGo none none false
          (cleanSt (⟨some n, ks.map reparsedKey, [], true, q⟩ :: cur :: stk) q2 (bl + 1))
          ((cs.map (fun c => dumpKVAux b c (indent + 1))).flatten
            ++ (tabs indent ++ ('}' :: '\n' :: rest))) = _
      rw [eqC]
      show scanGo none none false
          (cleanSt (⟨some n, ks.map reparsedKey, childs, true, q⟩ :: cur :: stk) q3 (bl + 1))
          (tabs indent ++ ('}' :: '\n' :: rest)) = _
      refine (scan_tabs indent none none none none false _ _ rfl rfl rfl (by rfl)
        (head_not_ws '}' _ rfl)).trans ?_
      refine (scan_step '}'
        (cleanSt (⟨some n, ks.map reparsedKey, childs, true, q⟩ :: cur :: stk) q3 (bl + 1))
        ⟨{ cur with child_sections := cur.child_sections
            ++ [⟨some n, ks.map reparsedKey, childs, true, q⟩] } :: stk,
          none, q3, false, false, false, [], bl + 1 - 1⟩ false _
        (fun pc' nc' => handleChar_close_brace pc' nc'
          (cleanSt (⟨some n, ks.map reparsedKey, childs, true, q⟩ :: cur :: stk) q3 (bl + 1))
          ⟨some n, ks.map reparsedKey, childs, true, q⟩ cur stk rfl rfl rfl)
        (Or.inl (by rfl)) (Or.inl rfl)).trans ?_
      refine (scan_step '\n'
        ⟨{ cur with child_sections := cur.child_sections
            ++ [⟨some n, ks.map reparsedKey, childs, true, q⟩] } :: stk,
          none, q3, false, false, false, [], bl + 1 - 1⟩
        ⟨{ cur with child_sections := cur.child_sections
            ++ [⟨some n, ks.map reparsedKey, childs, true, q⟩] } :: stk,
          none, q3, false, false, false, [], bl + 1 - 1⟩ false _
        (fun pc' nc' => handleChar_nl_empty pc' nc'
          ⟨{ cur with child_sections := cur.child_sections
              ++ [⟨some n, ks.map reparsedKey, childs, true, q⟩] } :: stk,
            none, q3, false, false, false, [], bl + 1 - 1⟩ rfl rfl)
        (Or.inl hsl) (Or.inl rfl)).trans ?_
      have hbl : bl + 1 - 1 = bl := by omega
      rw [hbl]
      exact scanGo_retarget none none pc2 snc2 _ rest (Or.inl hsl)
    · intro g hg
      cases g with
      | zero => omega
      | succ g =>
        simp only [normalizeF]
        rw [entrySig_reparsed, hnormC g (by omega)]
  | true =>
    rw [if_pos rfl] at hn
    have hdk : dumpKVAux (b + 1) ⟨some n, ks, cs, sg, true⟩ indent ++ rest
        = tabs indent ++ ('"' :: (n ++ ('"' :: '\n' :: (tabs indent ++ ('{' :: '\n' ::
            ((ks.map (dumpKey (tabs (indent + 1)))).flatten
              ++ ((cs.map (fun c => dumpKVAux b c (indent + 1))).flatten
                ++ (tabs indent ++ ('}' :: '\n' :: rest))))))))) := by
      simp [dumpKVAux, hguard, List.append_assoc]
    obtain ⟨q2, eqE⟩ := scan_entries ks (indent + 1) none none none none
      ⟨some n, [], [], true, true⟩ (cur :: stk) true (bl + 1)
      ((cs.map (fun c => dumpKVAux b c (indent + 1))).flatten
        ++ (tabs indent ++ ('}' :: '\n' :: rest))) hks hslC
    obtain ⟨childs, q3, eqC, hnormC⟩ := ihQ cs hcs' b (indent + 1) hfb' (by omega)
      ⟨some n, ks.map reparsedKey, [], true, true⟩ (cur :: stk)
      (by simp only [List.length_cons] at hstk ⊢; omega) q2 (bl + 1)
      (tabs indent ++ ('}' :: '\n' :: rest))
      (noSlashHead_tabs_cons indent '}' _ (by decide)) none none none none
    refine ⟨⟨some n, ks.map reparsedKey, childs, true, true⟩, q3, ?_, ?_⟩
    · rw [hdk]
      refine (scan_tabs indent pc snc none none false _ _ rfl rfl rfl (by rfl)
        (head_not_ws '"' _ rfl)).trans ?_
      refine (scan_step '"' (cleanSt (cur :: stk) q bl)
        ⟨cur :: stk, none, q, false, true, false, [], bl⟩ false _
        (fun pc' nc' => handleChar_quote_open pc' nc' (cleanSt (cur :: stk) q bl) rfl rfl)
        (Or.inr rfl) (Or.inl rfl)).trans ?_
      refine (scan_buffer_quoted n none none none none
        ⟨cur :: stk, none, q, false, true, false, [], bl⟩ _ hn rfl rfl
        (by simpa using hnl)).trans ?_
      show scanGo none none false ⟨cur :: stk, none, q, false, true, false, n, bl⟩
          ('"' :: '\n' :: (tabs indent ++ ('{' :: '\n' :: _))) = _
      refine (scan_step '"' ⟨cur :: stk, none, q, false, true, false, n, bl⟩
        ⟨cur :: stk, some n, true, true, false, false, [], bl⟩ false _
        (fun pc' nc' => handleChar_quote_close pc' nc'
          ⟨cur :: stk, none, q, false, true, false, n, bl⟩ rfl rfl hnl512)
        (Or.inl (by rfl)) (Or.inl rfl)).trans ?_
      refine (scan_step '\n' ⟨cur :: stk, some n, true, true, false, false, [], bl⟩
        ⟨cur :: stk, some n, true, true, false, false, [], bl⟩ false _
        (fun pc' nc' => handleChar_nl_empty pc' nc'
          ⟨cur :: stk, some n, true, true, false, false, [], bl⟩ rfl rfl)
        (Or.inl (noSlashHead_tabs_cons indent '{' _ (by decide))) (Or.inl rfl)).trans ?_
      refine (scan_tabs indent none none none none false _ _ rfl rfl rfl (by rfl)
        (head_not_ws '{' _ rfl)).trans ?_
      refine (scan_step '{' ⟨cur :: stk, some n, true, true, false, false, [], bl⟩
        (cleanSt (⟨some n, [], [], true, true⟩ :: cur :: stk) true (bl + 1)) false _
        (fun pc' nc' => handleChar_open_brace pc' nc'
          ⟨cur :: stk, some n, true, true, false, false, [], bl⟩ n rfl rfl rfl rfl hLlt)
        (Or.inl (by rfl)) (Or.inl rfl)).trans ?_
      refine (scan_step '\n'
        (cleanSt (⟨some n, [], [], true, true⟩ :: cur :: stk) true (bl + 1))
        (cleanSt (⟨some n, [], [], true, true⟩ :: cur :: stk) true (bl + 1)) false _
        (fun pc' nc' => handleChar_nl_empty pc' nc'
          (cleanSt (⟨some n, [], [], true, true⟩ :: cur :: stk) true (bl + 1)) rfl rfl)
        (Or.inl hslE) (Or.inl rfl)).trans ?_
      rw [eqE]
      show scanGo none none false
          (cleanSt (⟨some n, ks.map reparsedKey, [], true, true⟩ :: cur :: stk) q2 (bl + 1))
          ((cs.map (fun c => dumpKVAux b c (indent + 1))).flatten
            ++ (tabs indent ++ ('}' :: '\n' :: rest))) = _
      rw [eqC]
      show scanGo none none false
          (cleanSt (⟨some n, ks.map reparsedKey, childs, true, true⟩ :: cur :: stk) q3 (bl + 1))
          (tabs indent ++ ('}' :: '\n' :: rest)) = _
      refine (scan_tabs indent none none none none false _ _ rfl rfl rfl (by rfl)
        (head_not_ws '}' _ rfl)).trans ?_
      refine (scan_step '}'
        (cleanSt (⟨some n, ks.map reparsedKey, childs, true, true⟩ :: cur :: stk) q3 (bl + 1))
        ⟨{ cur with child_sections := cur.child_sections
            ++ [⟨some n, ks.map reparsedKey, childs, true, true⟩] } :: stk,
          none, q3, false, false, false, [], bl + 1 - 1⟩ false _
        (fun pc' nc' => handleChar_close_brace pc' nc'
          (cleanSt (⟨some n, ks.map reparsedKey, childs, true, true⟩ :: cur :: stk) q3 (bl + 1))
          ⟨some n, ks.map reparsedKey, childs, true, true⟩ cur stk rfl rfl rfl)
        (Or.inl (by rfl)) (Or.inl rfl)).trans ?_
      refine (scan_step '\n'
        ⟨{ cur with child_sections := cur.child_sections
            ++ [⟨some n, ks.map reparsedKey, childs, true, true⟩] } :: stk,
          none, q3, false, false, false, [], bl + 1 - 1⟩
        ⟨{ cur with child_sections := cur.child_sections
            ++ [⟨some n, ks.map reparsedKey, childs, true, true⟩] } :: stk,
          none, q3, false, false, false, [], bl + 1 - 1⟩ false _
        (fun pc' nc' => handleChar_nl_empty pc' nc'
          ⟨{ cur with child_sections := cur.child_sections
              ++ [⟨some n, ks.map reparsedKey, childs, true, true⟩] } :: stk,
            none, q3, false, false, false, [], bl + 1 - 1⟩ rfl rfl)
        (Or.inl hsl) (Or.inl rfl)).trans ?_
      have hbl : bl + 1 - 1 = bl := by omega
      rw [hbl]
      exact scanGo_retarget none none pc2 snc2 _ rest (Or.inl hsl)
    · intro g hg
      cases g with
      | zero => omega
      | succ g =>
        simp only [normalizeF]
        rw [entrySig_reparsed, hnormC g (by omega)]

/-- Joint fuel induction: the section and children scan lemmas hold at
every fuel. -/
theorem scan_section_all : ∀ f, ScanSectionP f ∧ ScanChildrenP f := by
  intro f
  induction f with
  | zero => exact ⟨scanSectionP_zero, scan_children_step 0 scanSectionP_zero⟩
  | succ f ih =>
    have hP := scan_section_step f ih.2
    exact ⟨hP, scan_children_step (f + 1) hP⟩

/-- C3: round trip.  For every tree `T` built without comments and with
consistent quoting (`wfRoot`: unnamed root, well-formed quoted-or-plain
names, keys and values, nesting within the serializer's 128-level cutoff),
parsing the dump of `T` into a fresh document succeeds with no errors and
rebuilds a tree structurally equal to `T`: same section names, same entries
(key and value) in the same order, same children in the same order.
Consequently `dump (parse (dump T))` equals `dump T` — dumping depends only
on the structural skeleton and the quoting flags, which the round trip also
preserves (names and keys come back with `quoted = true` only in the sense
that re-dumping them stays consistent; structural equality is stated via
`normalize`, which compares exactly names, entries and children). -/
theorem c3_round_trip (T : KeyValues) (hT : wfRoot T = true) :
    ∃ r, ParseStringM KeyValues.new (DumpToStream T) = some r
      ∧ r.ok = true ∧ r.errors = [] ∧ normalize r.tree = normalize T := by
  rcases T with ⟨tn, ks, cs, tg, tq⟩
  simp only [wfRoot, Bool.and_eq_true, beq_iff_eq] at hT
  obtain ⟨⟨hn, hks⟩, hcs⟩ := hT
  subst hn
  rw [List.all_eq_true] at hcs
  have hcs' : ∀ c ∈ cs, wfSection 127 c = true := fun c hc => by simpa using hcs c hc
  have hdumpGen : ∀ B : Nat, dumpKVAux (B + 1) ⟨none, ks, cs, tg, tq⟩ 0
      = (ks.map (dumpKey (tabs 0))).flatten
        ++ ((cs.map (fun c => dumpKVAux B c 1)).flatten ++ ([] : Str)) := by
    intro B
    simp [dumpKVAux, MAX_INDENT_LEVEL]
  have hdump : DumpToStream ⟨none, ks, cs, tg, tq⟩
      = (ks.map (dumpKey (tabs 0))).flatten
        ++ ((cs.map (fun c => dumpKVAux 128 c 1)).flatten ++ ([] : Str)) := by
    simpa [DumpToStream, MAX_INDENT_LEVEL] using hdumpGen 128
  obtain ⟨q2, eqE⟩ := scan_entries ks 0 none none none none KeyValues.new [] false 0
    ((cs.map (fun c => dumpKVAux 128 c 1)).flatten ++ ([] : Str)) hks
    (noSlashHead_children cs 127 128 1 hcs' (Or.inl (by omega))
      (Or.inr (by simp [MAX_INDENT_LEVEL])) [] rfl)
  obtain ⟨childs, q3, eqC, hnormC⟩ := (scan_section_all 127).2 cs hcs' 128 1
    (by omega) (by omega) ⟨none, ks.map reparsedKey, [], true, false⟩ []
    (by simp) q2 0 [] rfl none none none none
  have hrun : scanGo none none false (cleanSt [KeyValues.new] false 0)
      ((ks.map (dumpKey (tabs 0))).flatten
        ++ ((cs.map (fun c => dumpKVAux 128 c 1)).flatten ++ ([] : Str)))
      = .done (cleanSt [⟨none, ks.map reparsedKey, childs, true, false⟩] q3 0) := by
    refine eqE.trans ?_
    show scanGo none none false
        (cleanSt [(⟨none, ks.map reparsedKey, [], true, false⟩ : KeyValues)] q2 0)
        ((cs.map (fun c => dumpKVAux 128 c 1)).flatten ++ ([] : Str)) = _
    refine eqC.trans ?_
    rfl
  have hm : ParseStringM KeyValues.new (DumpToStream ⟨none, ks, cs, tg, tq⟩)
      = some ⟨⟨none, ks.map reparsedKey, childs, true, false⟩, true, []⟩ := by
    simp only [ParseStringM]
    rw [show initState KeyValues.new = cleanSt [KeyValues.new] false 0 from rfl,
      hdump, hrun]
    rfl
  refine ⟨⟨⟨none, ks.map reparsedKey, childs, true, false⟩, true, []⟩, hm, rfl, rfl, ?_⟩
  show SKV.node none ((ks.map reparsedKey).map entrySig) (childs.map (normalizeF 128))
      = SKV.node none (ks.map entrySig) (cs.map (normalizeF 128))
  rw [entrySig_reparsed, hnormC 128 (by omega)]

theorem c3_round_trip_witness :
    wfRoot ⟨none, [⟨some ['k'], some ['v'], .NONE, false⟩],
        [⟨some ['A'], [⟨some ['x'], some [], .NONE, true⟩], [], true, true⟩],
        true, false⟩ = true
    ∧ ∃ r, ParseStringM KeyValues.new
          (DumpToStream ⟨none, [⟨some ['k'], some ['v'], .NONE, false⟩],
            [⟨some ['A'], [⟨some ['x'], some [], .NONE, true⟩], [], true, true⟩],
            true, false⟩) = some r
        ∧ r.ok = true ∧ r.errors = []
        ∧ normalize r.tree
          = normalize ⟨none, [⟨some ['k'], some ['v'], .NONE, false⟩],
              [⟨some ['A'], [⟨some ['x'], some [], .NONE, true⟩], [], true, true⟩],
              true, false⟩ :=
  ⟨by decide, c3_round_trip _ (by decide)⟩

end KVSpec
